import Mathlib

/-!
# alea: Threefry block mixer and counter engine

A shallow embedding of `include/alea/threefry.hpp` and
`include/alea/counter_engine.hpp`.

* A word of type `Uint` (`uint32_t` or `uint64_t`) is a natural number below
  `2 ^ digits`; every C++ operation that can wrap is written with an explicit
  `% 2 ^ digits`.
* A `std::array<Uint, N>` is a `List Nat` of length `N`; `a[i]` is `rd a i`,
  `a[i] = x` is `wr a i x`.
* Member functions that mutate `*this` return the new engine state.
-/

namespace alea

/-! ## Words and arrays -/

/-- The unsigned word types the mixer is instantiated with. -/
inductive Uint where
  | uint32_t
  | uint64_t
  deriving DecidableEq

/-- `std::numeric_limits<Uint>::digits`. -/
def Uint.digits : Uint → Nat
  | .uint32_t => 32
  | .uint64_t => 64

/-- `sizeof(Uint)` in bytes. -/
def Uint.sizeof : Uint → Nat
  | .uint32_t => 4
  | .uint64_t => 8

/-- `std::numeric_limits<Uint>::max()`. -/
def Uint.max (U : Uint) : Nat := 2 ^ U.digits - 1

/-- Array read `a[i]`. Every read of the program is inside the array; outside it
(undefined in C++) the model returns 0. -/
def rd (a : List Nat) (i : Nat) : Nat := a.getD i 0

/-- Array write `a[i] = x`. -/
def wr (a : List Nat) (i : Nat) (x : Nat) : List Nat := a.set i x

/-! ## threefry.hpp -/

/-- `impl::uint_ks_parity<Uint>()`. -/
def uint_ks_parity : Uint → Nat
  | .uint32_t => 0x1BD11BDA
  | .uint64_t => 0x1BD11BDAA9FC1A22

/-- `threefry_constants<2, uint32_t>::rotations`. -/
def threefry_constants_2x32_rotations (pos : Nat) : Nat :=
  rd [13, 15, 26, 6, 17, 29, 16, 24] (pos % 8)

/-- `threefry_constants<4, uint32_t>::rotations0`. -/
def threefry_constants_4x32_rotations0 (pos : Nat) : Nat :=
  rd [10, 11, 13, 23, 6, 17, 25, 18] (pos % 8)

/-- `threefry_constants<4, uint32_t>::rotations1`. -/
def threefry_constants_4x32_rotations1 (pos : Nat) : Nat :=
  rd [26, 21, 27, 5, 20, 11, 10, 20] (pos % 8)

/-- `threefry_constants<2, uint64_t>::rotations`. -/
def threefry_constants_2x64_rotations (pos : Nat) : Nat :=
  rd [16, 42, 12, 31, 16, 32, 24, 21] (pos % 8)

/-- `threefry_constants<4, uint64_t>::rotations0`. -/
def threefry_constants_4x64_rotations0 (pos : Nat) : Nat :=
  rd [14, 52, 23, 5, 25, 46, 58, 32] (pos % 8)

/-- `threefry_constants<4, uint64_t>::rotations1`. -/
def threefry_constants_4x64_rotations1 (pos : Nat) : Nat :=
  rd [16, 57, 40, 37, 33, 12, 22, 32] (pos % 8)

/-- `impl::threefry_rotl`: `(x << s) | (x >> (digits - s))` on a `Uint`. -/
def threefry_rotl (U : Uint) (x s : Nat) : Nat :=
  ((x <<< s) % 2 ^ U.digits) ||| (x >>> (U.digits - s))

/-- `impl::rounds_functor<r_remain, r_max, Uint, Domain, Constants, 4>`:
the recursion on `r_remain` of the template, with `r = r_max - r_remain`. -/
def rounds_functor4 (U : Uint) (rotations0 rotations1 : Nat → Nat) (r_max : Nat) :
    Nat → List Nat → List Nat → List Nat
  | 0, _, c => c
  | r_remain + 1, ks, c =>
    let m := 2 ^ U.digits
    let r := r_max - (r_remain + 1)
    let c :=
      if r &&& 1 ≠ 0 then
        let c := wr c 0 ((rd c 0 + rd c 3) % m)
        let c := wr c 2 ((rd c 2 + rd c 1) % m)
        let c := wr c 3 (threefry_rotl U (rd c 3) (rotations0 r) ^^^ rd c 0)
        let c := wr c 1 (threefry_rotl U (rd c 1) (rotations1 r) ^^^ rd c 2)
        let r_next := r + 1
        let r4 := r_next >>> 2
        let r_next_mod_4 := r_next % 4
        if r_next_mod_4 = 0 then
          let c := wr c 0 ((rd c 0 + rd ks ((r4 + 0) % 5)) % m)
          let c := wr c 1 ((rd c 1 + rd ks ((r4 + 1) % 5)) % m)
          let c := wr c 2 ((rd c 2 + rd ks ((r4 + 2) % 5)) % m)
          let c := wr c 3 ((rd c 3 + (rd ks ((r4 + 3) % 5) + r4)) % m)
          c
        else c
      else
        let c := wr c 0 ((rd c 0 + rd c 1) % m)
        let c := wr c 2 ((rd c 2 + rd c 3) % m)
        let c := wr c 1 (threefry_rotl U (rd c 1) (rotations0 r) ^^^ rd c 0)
        let c := wr c 3 (threefry_rotl U (rd c 3) (rotations1 r) ^^^ rd c 2)
        c
    rounds_functor4 U rotations0 rotations1 r_max r_remain ks c

/-- `impl::rounds_functor<r_remain, r_max, Uint, Domain, Constants, 2>`. -/
def rounds_functor2 (U : Uint) (rotations : Nat → Nat) (r_max : Nat) :
    Nat → List Nat → List Nat → List Nat
  | 0, _, c => c
  | r_remain + 1, ks, c =>
    let m := 2 ^ U.digits
    let r := r_max - (r_remain + 1)
    let c := wr c 0 ((rd c 0 + rd c 1) % m)
    let c := wr c 1 (threefry_rotl U (rd c 1) (rotations r))
    let c := wr c 1 (rd c 1 ^^^ rd c 0)
    let r_next := r + 1
    let r4 := r_next >>> 2
    let r_next_mod_4 := r_next % 4
    let c :=
      if r_next_mod_4 = 0 then
        let c := wr c 0 ((rd c 0 + rd ks (r4 % 3)) % m)
        let c := wr c 1 ((rd c 1 + (rd ks ((r4 + 1) % 3) + r4)) % m)
        c
      else c
    rounds_functor2 U rotations r_max r_remain ks c

/-- The first lines of `threefry::operator()`: the extended key schedule `ks`
(the key followed by the xor of the parity constant with all key words). -/
def threefry_ks (U : Uint) (k : List Nat) : List Nat :=
  k ++ [k.foldl (fun a b => a ^^^ b) (uint_ks_parity U)]

/-- `utils::transform(k.begin(), k.end(), c.begin(), c.begin(), plus)`:
`c[i] = k[i] + c[i]` on words. -/
def threefry_add_key (U : Uint) (k c : List Nat) : List Nat :=
  List.zipWith (fun a b => (a + b) % 2 ^ U.digits) k c

/-- `threefry<4, Uint, R, Constants>::operator()` for the engine whose key is `k`. -/
def threefry4 (U : Uint) (R : Nat) (rotations0 rotations1 : Nat → Nat)
    (k counter : List Nat) : List Nat :=
  let ks := threefry_ks U k
  let c := threefry_add_key U k counter
  rounds_functor4 U rotations0 rotations1 R R ks c

/-- `threefry<2, Uint, R, Constants>::operator()` for the engine whose key is `k`. -/
def threefry2 (U : Uint) (R : Nat) (rotations : Nat → Nat)
    (k counter : List Nat) : List Nat :=
  let ks := threefry_ks U k
  let c := threefry_add_key U k counter
  rounds_functor2 U rotations R R ks c

/-- `typedef threefry<4, std::uint64_t> threefry4x64` (R = 20). -/
def threefry4x64 : List Nat → List Nat → List Nat :=
  threefry4 .uint64_t 20 threefry_constants_4x64_rotations0 threefry_constants_4x64_rotations1

/-- `typedef threefry<2, std::uint64_t> threefry2x64` (R = 20). -/
def threefry2x64 : List Nat → List Nat → List Nat :=
  threefry2 .uint64_t 20 threefry_constants_2x64_rotations

/-- `typedef threefry<4, std::uint32_t> threefry4x32` (R = 20). -/
def threefry4x32 : List Nat → List Nat → List Nat :=
  threefry4 .uint32_t 20 threefry_constants_4x32_rotations0 threefry_constants_4x32_rotations1

/-- `typedef threefry<2, std::uint32_t> threefry2x32` (R = 20). -/
def threefry2x32 : List Nat → List Nat → List Nat :=
  threefry2 .uint32_t 20 threefry_constants_2x32_rotations

/-- `threefry<2, Uint, R>` with the default `Constants = threefry_constants<2, Uint>`. -/
def threefry2_default (U : Uint) (R : Nat) : List Nat → List Nat → List Nat :=
  match U with
  | .uint32_t => threefry2 .uint32_t R threefry_constants_2x32_rotations
  | .uint64_t => threefry2 .uint64_t R threefry_constants_2x64_rotations

/-- `threefry<4, Uint, R>` with the default `Constants = threefry_constants<4, Uint>`. -/
def threefry4_default (U : Uint) (R : Nat) : List Nat → List Nat → List Nat :=
  match U with
  | .uint32_t =>
    threefry4 .uint32_t R threefry_constants_4x32_rotations0 threefry_constants_4x32_rotations1
  | .uint64_t =>
    threefry4 .uint64_t R threefry_constants_4x64_rotations0 threefry_constants_4x64_rotations1

/-! ## counter_engine.hpp -/

/-- The template parameter `CBRNG` of `counter_engine`: its `uint_type`, the size
`N` of `domain_type` / `key_type`, and the call `b(c)` as a function of the key
held by `b` and of the counter `c`. -/
structure CBRNG where
  uint_type : Uint
  N : Nat
  mix : List Nat → List Nat → List Nat

/-- The data members of `counter_engine<CBRNG>`. The generator object `b` holds
nothing but its key, so `b` is that key. -/
structure counter_engine where
  b : List Nat
  c : List Nat
  elem : Nat
  v : List Nat
  deriving DecidableEq

/-- `counter_engine(const key_type &uk) : b(uk), c(), elem()`. The member `v` is
not initialised by the constructor: `v_uninit` stands for whatever it holds. -/
def counter_engine.from_key (G : CBRNG) (uk : List Nat) (v_uninit : List Nat) :
    counter_engine :=
  { b := uk, c := List.replicate G.N 0, elem := 0, v := v_uninit }

/-- `counter_engine() : b(), c(), elem()`; `b()` value-initialises the key. -/
def counter_engine.from_default (G : CBRNG) (v_uninit : List Nat) : counter_engine :=
  { b := List.replicate G.N 0, c := List.replicate G.N 0, elem := 0, v := v_uninit }

/-- `counter_engine(result_type r)`: the key is filled with `r`. -/
def counter_engine.from_scalar (G : CBRNG) (r : Nat) (v_uninit : List Nat) :
    counter_engine :=
  let e := counter_engine.from_default G v_uninit
  let key := List.replicate G.N r
  { e with b := key }

/-- `void seed(const key_type &uk) { *this = counter_engine(uk); }`. -/
def counter_engine.seed_key (G : CBRNG) (_self : counter_engine) (uk : List Nat)
    (v_uninit : List Nat) : counter_engine :=
  counter_engine.from_key G uk v_uninit

/-- `void seed(result_type r) { *this = counter_engine(r); }`. -/
def counter_engine.seed_scalar (G : CBRNG) (_self : counter_engine) (r : Nat)
    (v_uninit : List Nat) : counter_engine :=
  counter_engine.from_scalar G r v_uninit

/-- `void seed() { *this = counter_engine(); }`. -/
def counter_engine.seed_default (G : CBRNG) (_self : counter_engine)
    (v_uninit : List Nat) : counter_engine :=
  counter_engine.from_default G v_uninit

/-- `operator==`: `lhs.c == rhs.c && lhs.elem == rhs.elem && lhs.b == rhs.b`. -/
def counter_engine.eq (lhs rhs : counter_engine) : Bool :=
  decide (lhs.c = rhs.c) && decide (lhs.elem = rhs.elem) && decide (lhs.b = rhs.b)

/-- `operator!=`: `lhs.c != rhs.c || lhs.elem != rhs.elem || lhs.b != rhs.b`. -/
def counter_engine.ne (lhs rhs : counter_engine) : Bool :=
  decide (lhs.c ≠ rhs.c) || decide (lhs.elem ≠ rhs.elem) || decide (lhs.b ≠ rhs.b)

/-- `incr_array(start, finish)`: the list is the range `[start, finish)`. -/
def incr_array (U : Uint) : List Nat → List Nat
  | [] => []
  | x :: rest =>
    if x = U.max then 0 :: incr_array U rest
    else ((x + 1) % 2 ^ U.digits) :: rest

/-- `incr_array(start, finish, inc_val)`, `inc_val` a `std::uintmax_t` (64 bits). -/
def incr_array_by (U : Uint) : List Nat → Nat → List Nat
  | [], _ => []
  | x :: rest, inc_val =>
    if inc_val = 0 then x :: rest
    else
      let current_inc_val := inc_val &&& U.max
      let next_inc_val := if 8 ≠ U.sizeof then inc_val >>> (U.sizeof * 8) else 0
      let past_val := x
      let x := (x + current_inc_val) % 2 ^ U.digits
      if x < past_val then x :: incr_array_by U rest ((next_inc_val + 1) % 2 ^ 64)
      else x :: incr_array_by U rest next_inc_val

/-- `result_type operator()()`: the returned word and the new state. `c.size()`
is the array size `N` of `ctr_type`; `--elem` cannot wrap since `N` is 2 or 4. -/
def counter_engine.next (G : CBRNG) (e : counter_engine) : Nat × counter_engine :=
  let e :=
    if e.elem = 0 then
      let c := incr_array G.uint_type e.c
      { e with c := c, v := G.mix e.b c, elem := G.N }
    else e
  let elem := e.elem - 1
  (rd e.v elem, { e with elem := elem })

/-- The state after `n` consecutive calls of `operator()`, results dropped. -/
def counter_engine.steps (G : CBRNG) : Nat → counter_engine → counter_engine
  | 0, e => e
  | n + 1, e => counter_engine.steps G n (e.next G).2

/-- The words returned by `n` consecutive calls of `operator()`, in call order,
and the state after them. -/
def counter_engine.run (G : CBRNG) : Nat → counter_engine → List Nat × counter_engine
  | 0, e => ([], e)
  | n + 1, e =>
    let r := e.next G
    let rs := counter_engine.run G n r.2
    (r.1 :: rs.1, rs.2)

/-- `ctr_type generate_block()`: the returned block and the new state. -/
def counter_engine.generate_block (G : CBRNG) (e : counter_engine) :
    List Nat × counter_engine :=
  let e := { e with elem := 0 }
  let c := incr_array G.uint_type e.c
  (G.mix e.b c, { e with c := c })

/-- The first loop of `discard` on `(elem, skip)`:
`while (elem != 0 && skip > 0) { skip--; elem--; }`. -/
def discard_drop : Nat → Nat → Nat × Nat
  | 0, skip => (0, skip)
  | elem + 1, 0 => (elem + 1, 0)
  | elem + 1, skip + 1 => discard_drop elem skip

/-- `void discard(std::uintmax_t skip)`; the second loop calls `operator()`
`counter_rest` times. -/
def counter_engine.discard (G : CBRNG) (e : counter_engine) (skip : Nat) :
    counter_engine :=
  let d := discard_drop e.elem skip
  let e := { e with elem := d.1 }
  let skip := d.2
  let nelem := G.N
  let counter_increment := skip / nelem
  let counter_rest := skip % nelem
  let e := { e with c := incr_array_by G.uint_type e.c counter_increment }
  counter_engine.steps G counter_rest e

/-- The number of iterations of the first loop of `discard` from `(elem, skip)`. -/
def discard_drop_iters : Nat → Nat → Nat
  | 0, _ => 0
  | _ + 1, 0 => 0
  | elem + 1, skip + 1 => discard_drop_iters elem skip + 1

/-- The number of nested calls `incr_array(start + 1, finish, ...)` that
`incr_array(start, finish, inc_val)` makes before it returns. -/
def incr_array_by_depth (U : Uint) : List Nat → Nat → Nat
  | [], _ => 0
  | x :: rest, inc_val =>
    if inc_val = 0 then 0
    else
      let current_inc_val := inc_val &&& U.max
      let next_inc_val := if 8 ≠ U.sizeof then inc_val >>> (U.sizeof * 8) else 0
      let past_val := x
      let x := (x + current_inc_val) % 2 ^ U.digits
      if x < past_val then incr_array_by_depth U rest ((next_inc_val + 1) % 2 ^ 64) + 1
      else incr_array_by_depth U rest next_inc_val + 1

/-- The number of evaluations `b(c)` of the mixer in one call of `operator()`:
one when the buffer is empty, none otherwise. -/
def counter_engine.next_mix_calls (e : counter_engine) : Nat :=
  if e.elem = 0 then 1 else 0

/-- The number of evaluations of the mixer in `n` consecutive calls of
`operator()`. -/
def counter_engine.steps_mix_calls (G : CBRNG) : Nat → counter_engine → Nat
  | 0, _ => 0
  | n + 1, e => e.next_mix_calls + counter_engine.steps_mix_calls G n (e.next G).2

/-- What one call of `discard` does: the state it leaves, the iterations of its
first loop, the depth of the `incr_array` recursion, the calls of `operator()`
made by its second loop, and the evaluations of the mixer. -/
structure discard_trace where
  state : counter_engine
  loop_iters : Nat
  incr_depth : Nat
  next_calls : Nat
  mix_calls : Nat

/-- `void discard(std::uintmax_t skip)`, with its work counted. -/
def counter_engine.discard_traced (G : CBRNG) (e : counter_engine) (skip : Nat) :
    discard_trace :=
  let loop_iters := discard_drop_iters e.elem skip
  let d := discard_drop e.elem skip
  let e := { e with elem := d.1 }
  let skip := d.2
  let nelem := G.N
  let counter_increment := skip / nelem
  let counter_rest := skip % nelem
  let incr_depth := incr_array_by_depth G.uint_type e.c counter_increment
  let e := { e with c := incr_array_by G.uint_type e.c counter_increment }
  { state := counter_engine.steps G counter_rest e
    loop_iters := loop_iters
    incr_depth := incr_depth
    next_calls := counter_rest
    mix_calls := counter_engine.steps_mix_calls G counter_rest e }

/-- `std::rotate(first, first + n, last)` on the whole array: the element at
position `n` becomes the first one. -/
def std_rotate (a : List Nat) (n : Nat) : List Nat := a.drop n ++ a.take n

/-- `counter_engine derivate(const key_type &key) const`. -/
def counter_engine.derivate (G : CBRNG) (e : counter_engine) (key : List Nat)
    (v_uninit : List Nat) : counter_engine :=
  let derivate_counter := e
  let derivate_counter := (derivate_counter.next G).2
  let derivate_counter := { derivate_counter with b := key }
  let derivate_counter :=
    { derivate_counter with v := std_rotate derivate_counter.v e.elem }
  let new_key := G.mix derivate_counter.b derivate_counter.v
  derivate_counter.seed_key G new_key v_uninit

/-- `counter_engine derivate(result_type r) const`: the key is filled with `r`. -/
def counter_engine.derivate_scalar (G : CBRNG) (e : counter_engine) (r : Nat)
    (v_uninit : List Nat) : counter_engine :=
  let key := List.replicate G.N r
  e.derivate G key v_uninit

/-- The overload `random_engine_derivate(const counter_engine<CBRNG> &engine,
const result_type &key)` of counter_engine.hpp: `return engine.derivate(key)`,
which is the `derivate(result_type)` overload. -/
def random_engine_derivate (G : CBRNG) (engine : counter_engine) (key : Nat)
    (v_uninit : List Nat) : counter_engine :=
  engine.derivate_scalar G key v_uninit

/-- The generic `template <typename Engine> Engine random_engine_derivate(const
Engine &engine, const typename Engine::result_type &key)` of
impl/random_derivate_impl.hpp: `Engine res(engine); old_val = res(); return res;`.
`call` is `Engine::operator()`, giving the returned word and the new state. -/
def random_engine_derivate_generic {Engine : Type} (call : Engine → Nat × Engine)
    (engine : Engine) (_key : Nat) : Engine :=
  let res := engine
  let old_val_res := call res
  let res := old_val_res.2
  res

/-- The complement `~x` of a word of type `Uint`. -/
def Uint.bit_not (U : Uint) (x : Nat) : Nat := 2 ^ U.digits - 1 - x

/-- `const static result_type _min = 0`. -/
def counter_engine._min (_G : CBRNG) : Nat := 0

/-- `const static result_type _max = ~((result_type)0)`. -/
def counter_engine._max (G : CBRNG) : Nat := G.uint_type.bit_not 0

/-- `static constexpr result_type min() { return _min; }`. -/
def counter_engine.min (G : CBRNG) : Nat := counter_engine._min G

/-- `static constexpr result_type max() { return _max; }`. -/
def counter_engine.max (G : CBRNG) : Nat := counter_engine._max G

/-- `counter_engine<threefry2x32>`. -/
def engine2x32 : CBRNG := { uint_type := .uint32_t, N := 2, mix := threefry2x32 }

/-- `counter_engine<threefry4x32>`. -/
def engine4x32 : CBRNG := { uint_type := .uint32_t, N := 4, mix := threefry4x32 }

/-- `counter_engine<threefry2x64>`. -/
def engine2x64 : CBRNG := { uint_type := .uint64_t, N := 2, mix := threefry2x64 }

/-- `counter_engine<threefry4x64>`. -/
def engine4x64 : CBRNG := { uint_type := .uint64_t, N := 4, mix := threefry4x64 }

/-! ## Specification-side notions -/

/-- The value of a counter read as one little-endian integer. -/
def ctr_val (U : Uint) : List Nat → Nat
  | [] => 0
  | x :: rest => x + 2 ^ U.digits * ctr_val U rest

/-- The `n`-word little-endian encoding of `x` (its low `n` words). -/
def ctr_enc (U : Uint) : Nat → Nat → List Nat
  | 0, _ => []
  | n + 1, x => (x % 2 ^ U.digits) :: ctr_enc U n (x / 2 ^ U.digits)

/-- Every element of the array is a value of the word type. -/
def words_ok (U : Uint) (a : List Nat) : Prop := ∀ x ∈ a, x < 2 ^ U.digits

instance (U : Uint) (a : List Nat) : Decidable (words_ok U a) := by
  unfold words_ok; infer_instance

/-- A counter of the engine instantiated with `G`: `N` words of `uint_type`. -/
def ctr_ok (G : CBRNG) (c : List Nat) : Prop :=
  c.length = G.N ∧ words_ok G.uint_type c

instance (G : CBRNG) (c : List Nat) : Decidable (ctr_ok G c) := by
  unfold ctr_ok; infer_instance

/-- The engine states the public interface can produce: any constructor or
`seed`, followed by any sequence of `operator()`, `generate_block` and `discard`
calls (`discard` takes a `std::uintmax_t`). -/
inductive Reachable (G : CBRNG) : counter_engine → Prop
  | from_key (uk v_uninit : List Nat) : Reachable G (counter_engine.from_key G uk v_uninit)
  | from_scalar (r : Nat) (v_uninit : List Nat) :
      Reachable G (counter_engine.from_scalar G r v_uninit)
  | from_default (v_uninit : List Nat) : Reachable G (counter_engine.from_default G v_uninit)
  | next {e : counter_engine} : Reachable G e → Reachable G (e.next G).2
  | generate_block {e : counter_engine} : Reachable G e → Reachable G (e.generate_block G).2
  | discard {e : counter_engine} (skip : Nat) : skip < 2 ^ 64 → Reachable G e →
      Reachable G (e.discard G skip)

/-- While words remain to be served, the buffer is the block of the current
key and counter. -/
def buffer_ok (G : CBRNG) (e : counter_engine) : Prop :=
  e.elem ≠ 0 → e.v = G.mix e.b e.c

/-- Two states that no sequence of calls can tell apart: equal under
`operator==` and, while words remain to be served, with the same buffer. -/
def obs_eq (e1 e2 : counter_engine) : Prop :=
  e1.c = e2.c ∧ e1.elem = e2.elem ∧ e1.b = e2.b ∧ (e1.elem ≠ 0 → e1.v = e2.v)

/-! ## The plain-loop definition of Threefry -/

/-- Round `r` for `N = 2`: `s0 += s1; s1 = rotl(s1, rot[r mod 8]) xor s0`. -/
def loop_round2 (U : Uint) (rot : List Nat) (r : Nat) : List Nat → List Nat
  | [s0, s1] =>
    let s0 := (s0 + s1) % 2 ^ U.digits
    let s1 := threefry_rotl U s1 (rd rot (r % 8)) ^^^ s0
    [s0, s1]
  | s => s

/-- Round `r` for `N = 4`: the pairs (0,1), (2,3) when `r` is even, the pairs
(0,3), (2,1) when `r` is odd. -/
def loop_round4 (U : Uint) (rot0 rot1 : List Nat) (r : Nat) : List Nat → List Nat
  | [s0, s1, s2, s3] =>
    if r % 2 = 0 then
      let s0 := (s0 + s1) % 2 ^ U.digits
      let s2 := (s2 + s3) % 2 ^ U.digits
      let s1 := threefry_rotl U s1 (rd rot0 (r % 8)) ^^^ s0
      let s3 := threefry_rotl U s3 (rd rot1 (r % 8)) ^^^ s2
      [s0, s1, s2, s3]
    else
      let s0 := (s0 + s3) % 2 ^ U.digits
      let s2 := (s2 + s1) % 2 ^ U.digits
      let s3 := threefry_rotl U s3 (rd rot0 (r % 8)) ^^^ s0
      let s1 := threefry_rotl U s1 (rd rot1 (r % 8)) ^^^ s2
      [s0, s1, s2, s3]
  | s => s

/-- Add `ks[(g + i) mod (N + 1)]` to `state[i]` for the words from index `i` on. -/
def loop_add_ks (U : Uint) (N : Nat) (ks : List Nat) (g : Nat) : Nat → List Nat → List Nat
  | _, [] => []
  | i, x :: rest =>
    ((x + rd ks ((g + i) % (N + 1))) % 2 ^ U.digits) :: loop_add_ks U N ks g (i + 1) rest

/-- Key injection number `g`: add `ks[(g + i) mod (N + 1)]` to `state[i]` for
every `i`, and additionally add `g` to `state[N - 1]`. -/
def loop_inject (U : Uint) (N : Nat) (ks : List Nat) (g : Nat) (s : List Nat) : List Nat :=
  let s := loop_add_ks U N ks g 0 s
  wr s (N - 1) ((rd s (N - 1) + g) % 2 ^ U.digits)

/-- One iteration of the loop: round `r`, then the key injection when
`(r + 1) mod 4 = 0`, with `g = (r + 1) / 4`. -/
def loop_step (U : Uint) (N : Nat) (round : Nat → List Nat → List Nat) (ks : List Nat)
    (s : List Nat) (r : Nat) : List Nat :=
  let s := round r s
  if (r + 1) % 4 = 0 then loop_inject U N ks ((r + 1) / 4) s else s

/-- The extended key schedule: the key followed by the parity word. -/
def loop_ks (U : Uint) (k : List Nat) : List Nat :=
  k ++ [k.foldl (fun a b => a ^^^ b) (uint_ks_parity U)]

/-- The initial state: `state[i] = c[i] + k[i] mod 2^W`. -/
def loop_init (U : Uint) (k c : List Nat) : List Nat :=
  List.zipWith (fun ci ki => (ci + ki) % 2 ^ U.digits) c k

/-- Threefry with `N = 2` as a plain loop over `r = 0 .. R-1`. -/
def threefry_loop2 (U : Uint) (R : Nat) (rot : List Nat) (k c : List Nat) : List Nat :=
  (List.range R).foldl (loop_step U 2 (loop_round2 U rot) (loop_ks U k)) (loop_init U k c)

/-- Threefry with `N = 4` as a plain loop over `r = 0 .. R-1`. -/
def threefry_loop4 (U : Uint) (R : Nat) (rot0 rot1 : List Nat) (k c : List Nat) : List Nat :=
  (List.range R).foldl (loop_step U 4 (loop_round4 U rot0 rot1) (loop_ks U k))
    (loop_init U k c)

/-- The rotation table of `threefry_constants<2, Uint>`. -/
def rotation_table2 : Uint → List Nat
  | .uint32_t => [13, 15, 26, 6, 17, 29, 16, 24]
  | .uint64_t => [16, 42, 12, 31, 16, 32, 24, 21]

/-- The first rotation table of `threefry_constants<4, Uint>`. -/
def rotation_table4_0 : Uint → List Nat
  | .uint32_t => [10, 11, 13, 23, 6, 17, 25, 18]
  | .uint64_t => [14, 52, 23, 5, 25, 46, 58, 32]

/-- The second rotation table of `threefry_constants<4, Uint>`. -/
def rotation_table4_1 : Uint → List Nat
  | .uint32_t => [26, 21, 27, 5, 20, 11, 10, 20]
  | .uint64_t => [16, 57, 40, 37, 33, 12, 22, 32]

/-- The arrays of `n` words of type `U`. -/
def word_arrays (U : Uint) (n : Nat) : Set (List Nat) := {c | c.length = n ∧ words_ok U c}

/-! ## Counter arithmetic -/

theorem Uint.digits_pos (U : Uint) : 0 < U.digits := by cases U <;> decide

theorem Uint.digits_le (U : Uint) : U.digits ≤ 64 := by cases U <;> decide

theorem Uint.pow_pos (U : Uint) : 0 < 2 ^ U.digits := Nat.two_pow_pos _

theorem incr_array_length (U : Uint) (c : List Nat) :
    (incr_array U c).length = c.length := by
  induction c with
  | nil => rfl
  | cons x rest ih =>
    unfold incr_array
    split <;> simp [ih]

theorem incr_array_ok (U : Uint) (c : List Nat) (h : words_ok U c) :
    words_ok U (incr_array U c) := by
  induction c with
  | nil => exact h
  | cons x rest ih =>
    have hr : words_ok U rest := fun y hy => h y (List.mem_cons_of_mem _ hy)
    unfold incr_array
    split
    · intro y hy
      rcases List.mem_cons.1 hy with rfl | hy
      · exact U.pow_pos
      · exact ih hr y hy
    · intro y hy
      rcases List.mem_cons.1 hy with rfl | hy
      · exact Nat.mod_lt _ U.pow_pos
      · exact hr y hy

theorem ctr_val_lt (U : Uint) (c : List Nat) (h : words_ok U c) :
    ctr_val U c < 2 ^ (U.digits * c.length) := by
  induction c with
  | nil => simp [ctr_val]
  | cons x rest ih =>
    have hr : words_ok U rest := fun y hy => h y (List.mem_cons_of_mem _ hy)
    have hx : x < 2 ^ U.digits := h x (List.mem_cons_self _ _)
    have := ih hr
    simp only [ctr_val, List.length_cons, Nat.mul_succ, Nat.pow_add]
    have hM := U.pow_pos
    calc x + 2 ^ U.digits * ctr_val U rest
        < 2 ^ U.digits + 2 ^ U.digits * ctr_val U rest := by omega
      _ = 2 ^ U.digits * (ctr_val U rest + 1) := by ring
      _ ≤ 2 ^ U.digits * 2 ^ (U.digits * rest.length) := Nat.mul_le_mul_left _ this
      _ = 2 ^ (U.digits * rest.length) * 2 ^ U.digits := by ring

theorem words_ok_tail {U : Uint} {x : Nat} {rest : List Nat} (h : words_ok U (x :: rest)) :
    words_ok U rest := fun y hy => h y (List.mem_cons_of_mem _ hy)

theorem words_ok_head {U : Uint} {x : Nat} {rest : List Nat} (h : words_ok U (x :: rest)) :
    x < 2 ^ U.digits := h x (List.mem_cons_self _ _)

theorem words_ok_cons {U : Uint} {x : Nat} {rest : List Nat} (hx : x < 2 ^ U.digits)
    (hr : words_ok U rest) : words_ok U (x :: rest) := by
  intro y hy
  rcases List.mem_cons.1 hy with rfl | hy
  · exact hx
  · exact hr y hy

theorem words_ok_replicate_zero (U : Uint) (n : Nat) : words_ok U (List.replicate n 0) := by
  intro y hy
  rw [List.eq_of_mem_replicate hy]
  exact U.pow_pos

/-- One digit `s` below the base `M` in front of a value reduced modulo `P`. -/
theorem digit_add_mul_mod (M P s t : Nat) (hs : s < M) :
    s + M * (t % P) = (s + M * t) % (M * P) := by
  have hM : 0 < M := by omega
  rw [Nat.mod_mul, Nat.add_mul_mod_self_left, Nat.mod_eq_of_lt hs,
    Nat.add_mul_div_left _ _ hM, Nat.div_eq_of_lt hs, Nat.zero_add]

theorem pow_digits_succ (U : Uint) (n : Nat) :
    2 ^ (U.digits * (n + 1)) = 2 ^ U.digits * 2 ^ (U.digits * n) := by
  rw [Nat.mul_succ, Nat.pow_add, Nat.mul_comm]

theorem incr_array_val (U : Uint) (c : List Nat) (h : words_ok U c) :
    ctr_val U (incr_array U c) = (ctr_val U c + 1) % 2 ^ (U.digits * c.length) := by
  induction c with
  | nil => simp [incr_array, ctr_val]
  | cons x rest ih =>
    have hr := words_ok_tail h
    have hx := words_ok_head h
    have hM := U.pow_pos
    rw [List.length_cons, pow_digits_succ]
    unfold incr_array
    split
    · rename_i hmax
      simp only [ctr_val]
      rw [ih hr, digit_add_mul_mod _ _ 0 _ hM]
      congr 1
      unfold Uint.max at hmax
      rw [hmax, Nat.mul_add, Nat.mul_one]
      omega
    · rename_i hmax
      unfold Uint.max at hmax
      have hx1 : x + 1 < 2 ^ U.digits := by omega
      simp only [ctr_val]
      rw [Nat.mod_eq_of_lt hx1]
      have hlt := ctr_val_lt U ((x + 1) :: rest) (words_ok_cons hx1 hr)
      rw [List.length_cons, pow_digits_succ] at hlt
      simp only [ctr_val] at hlt
      rw [Nat.mod_eq_of_lt (by omega)]
      omega

theorem ctr_enc_length (U : Uint) (n x : Nat) : (ctr_enc U n x).length = n := by
  induction n generalizing x with
  | zero => rfl
  | succ n ih => simp [ctr_enc, ih]

theorem ctr_enc_ok (U : Uint) (n x : Nat) : words_ok U (ctr_enc U n x) := by
  induction n generalizing x with
  | zero => intro y hy; simp [ctr_enc] at hy
  | succ n ih => exact words_ok_cons (Nat.mod_lt _ U.pow_pos) (ih _)

theorem ctr_enc_val (U : Uint) (c : List Nat) (h : words_ok U c) :
    ctr_enc U c.length (ctr_val U c) = c := by
  induction c with
  | nil => rfl
  | cons x rest ih =>
    have hx := words_ok_head h
    have hM := U.pow_pos
    simp only [List.length_cons, ctr_enc, ctr_val]
    rw [Nat.add_mul_mod_self_left, Nat.mod_eq_of_lt hx, Nat.add_mul_div_left _ _ hM,
      Nat.div_eq_of_lt hx, Nat.zero_add, ih (words_ok_tail h)]

theorem ctr_val_enc (U : Uint) (n x : Nat) :
    ctr_val U (ctr_enc U n x) = x % 2 ^ (U.digits * n) := by
  induction n generalizing x with
  | zero => simp [ctr_enc, ctr_val, Nat.mod_one]
  | succ n ih =>
    simp only [ctr_enc, ctr_val]
    rw [ih, pow_digits_succ, Nat.mod_mul]

/-- Counters of the same shape with the same value are the same array. -/
theorem ctr_val_inj (U : Uint) (c d : List Nat) (hc : words_ok U c) (hd : words_ok U d)
    (hl : c.length = d.length) (hv : ctr_val U c = ctr_val U d) : c = d := by
  rw [← ctr_enc_val U c hc, ← ctr_enc_val U d hd, hl, hv]

theorem ctr_val_replicate_zero (U : Uint) (n : Nat) : ctr_val U (List.replicate n 0) = 0 := by
  induction n with
  | zero => rfl
  | succ n ih => simp [List.replicate, ctr_val, ih]

theorem incr_array_by_spec (U : Uint) (c : List Nat) (h : words_ok U c) (inc_val : Nat)
    (hinc : inc_val < 2 ^ 64) :
    (incr_array_by U c inc_val).length = c.length ∧
    words_ok U (incr_array_by U c inc_val) ∧
    ctr_val U (incr_array_by U c inc_val) =
      (ctr_val U c + inc_val) % 2 ^ (U.digits * c.length) := by
  induction c generalizing inc_val with
  | nil => simp [incr_array_by, ctr_val, Nat.mod_one]; exact h
  | cons x rest ih =>
    have hr := words_ok_tail h
    have hx := words_ok_head h
    have hM := U.pow_pos
    unfold incr_array_by
    split
    · rename_i h0
      refine ⟨rfl, h, ?_⟩
      have := ctr_val_lt U _ h
      rw [h0, Nat.add_zero, Nat.mod_eq_of_lt this]
    · have hcur : inc_val &&& U.max = inc_val % 2 ^ U.digits := by
        unfold Uint.max
        exact Nat.and_pow_two_sub_one_eq_mod _ _
      have hnext : (if 8 ≠ U.sizeof then inc_val >>> (U.sizeof * 8) else 0)
          = inc_val / 2 ^ U.digits := by
        cases U
        · simp [Uint.sizeof, Uint.digits, Nat.shiftRight_eq_div_pow]
        · simp only [Uint.sizeof, Uint.digits, ne_eq, not_true_eq_false, if_false]
          exact (Nat.div_eq_of_lt hinc).symm
      have hnlt : inc_val / 2 ^ U.digits + 1 < 2 ^ 64 := by
        cases U
        · simp only [Uint.digits]
          have : inc_val / 2 ^ 32 < 2 ^ 32 := by
            apply Nat.div_lt_of_lt_mul
            calc inc_val < 2 ^ 64 := hinc
              _ = 2 ^ 32 * 2 ^ 32 := by norm_num
          omega
        · simp only [Uint.digits]
          rw [Nat.div_eq_of_lt hinc]
          norm_num
      simp only [hcur, hnext]
      rw [Nat.mod_eq_of_lt hnlt]
      have hcl : inc_val % 2 ^ U.digits < 2 ^ U.digits := Nat.mod_lt _ hM
      have hs : (x + inc_val % 2 ^ U.digits) % 2 ^ U.digits < 2 ^ U.digits := Nat.mod_lt _ hM
      have hdm := Nat.div_add_mod inc_val (2 ^ U.digits)
      rw [List.length_cons, pow_digits_succ]
      split
      · rename_i hov
        obtain ⟨hl, hok, hv⟩ := ih hr _ hnlt
        refine ⟨by simp [hl], words_ok_cons hs hok, ?_⟩
        simp only [ctr_val]
        rw [hv, digit_add_mul_mod _ _ _ _ hs]
        congr 1
        have hge : 2 ^ U.digits ≤ x + inc_val % 2 ^ U.digits := by
          by_contra hlt
          rw [Nat.mod_eq_of_lt (by omega)] at hov
          omega
        have hsub : (x + inc_val % 2 ^ U.digits) % 2 ^ U.digits
            = x + inc_val % 2 ^ U.digits - 2 ^ U.digits := by
          rw [Nat.mod_eq_sub_mod hge, Nat.mod_eq_of_lt (by omega)]
        rw [hsub]
        generalize ctr_val U rest = R at *
        generalize inc_val / 2 ^ U.digits = q at *
        generalize inc_val % 2 ^ U.digits = m at *
        generalize 2 ^ U.digits = M at *
        subst hdm
        rw [Nat.mul_add, Nat.mul_add, Nat.mul_one]
        omega
      · rename_i hov
        have hnlt2 : inc_val / 2 ^ U.digits < 2 ^ 64 := by omega
        obtain ⟨hl, hok, hv⟩ := ih hr _ hnlt2
        refine ⟨by simp [hl], words_ok_cons hs hok, ?_⟩
        simp only [ctr_val]
        rw [hv, digit_add_mul_mod _ _ _ _ hs]
        congr 1
        have hlt : x + inc_val % 2 ^ U.digits < 2 ^ U.digits := by
          by_contra hge
          have hge : 2 ^ U.digits ≤ x + inc_val % 2 ^ U.digits := by omega
          rw [Nat.mod_eq_sub_mod hge, Nat.mod_eq_of_lt (by omega)] at hov
          omega
        rw [Nat.mod_eq_of_lt hlt]
        generalize ctr_val U rest = R at *
        generalize inc_val / 2 ^ U.digits = q at *
        generalize inc_val % 2 ^ U.digits = m at *
        generalize 2 ^ U.digits = M at *
        subst hdm
        rw [Nat.mul_add]
        omega

/-! ## The scalar generator -/

theorem next_refill (G : CBRNG) (e : counter_engine) (h : e.elem = 0) :
    e.next G = (rd (G.mix e.b (incr_array G.uint_type e.c)) (G.N - 1),
      { b := e.b, c := incr_array G.uint_type e.c, elem := G.N - 1,
        v := G.mix e.b (incr_array G.uint_type e.c) }) := by
  simp [counter_engine.next, h]

theorem next_buffered (G : CBRNG) (e : counter_engine) (h : e.elem ≠ 0) :
    e.next G = (rd e.v (e.elem - 1), { e with elem := e.elem - 1 }) := by
  simp [counter_engine.next, h]

theorem steps_eq_run (G : CBRNG) (n : Nat) (e : counter_engine) :
    counter_engine.steps G n e = (counter_engine.run G n e).2 := by
  induction n generalizing e with
  | zero => rfl
  | succ n ih => simp [counter_engine.steps, counter_engine.run, ih]

theorem steps_add (G : CBRNG) (m n : Nat) (e : counter_engine) :
    counter_engine.steps G (m + n) e = counter_engine.steps G n (counter_engine.steps G m e) := by
  induction m generalizing e with
  | zero => simp [counter_engine.steps]
  | succ m ih =>
    rw [Nat.succ_add]
    simp [counter_engine.steps, ih]

/-- Words still buffered are served from the high end, nothing else changes. -/
theorem run_drain (G : CBRNG) (j : Nat) (e : counter_engine) (h : j ≤ e.elem) :
    counter_engine.run G j e =
      ((List.range j).map (fun i => rd e.v (e.elem - 1 - i)),
        { e with elem := e.elem - j }) := by
  induction j generalizing e with
  | zero => simp [counter_engine.run]
  | succ j ih =>
    have hne : e.elem ≠ 0 := by omega
    simp only [counter_engine.run]
    rw [next_buffered G e hne, ih _ (by simp only; omega)]
    simp only [List.range_succ_eq_map, List.map_cons, List.map_map, Nat.sub_zero]
    refine Prod.ext ?_ ?_
    · simp only [List.cons.injEq, true_and]
      apply List.map_congr_left
      intro i _
      simp only [Function.comp, Nat.succ_eq_add_one]
      congr 1
      omega
    · simp only [counter_engine.mk.injEq, true_and, and_true]
      omega

/-- From an empty buffer: the first call refills from the incremented counter and
the block is served from its last word to its first. -/
theorem run_block (G : CBRNG) (e : counter_engine) (h0 : e.elem = 0) (j : Nat)
    (h1 : 1 ≤ j) (hj : j ≤ G.N) :
    counter_engine.run G j e =
      ((List.range j).map
          (fun i => rd (G.mix e.b (incr_array G.uint_type e.c)) (G.N - 1 - i)),
        { b := e.b, c := incr_array G.uint_type e.c, elem := G.N - j,
          v := G.mix e.b (incr_array G.uint_type e.c) }) := by
  obtain ⟨j, rfl⟩ : ∃ j', j = j' + 1 := ⟨j - 1, by omega⟩
  simp only [counter_engine.run]
  rw [next_refill G e h0, run_drain G j _ (by simp only; omega)]
  simp only [List.range_succ_eq_map, List.map_cons, List.map_map, Nat.sub_zero]
  refine Prod.ext ?_ ?_
  · simp only [List.cons.injEq, true_and]
    apply List.map_congr_left
    intro i _
    simp only [Function.comp, Nat.succ_eq_add_one]
    congr 1
    omega
  · simp only [counter_engine.mk.injEq, true_and, and_true]
    omega

theorem steps_drain (G : CBRNG) (j : Nat) (e : counter_engine) (h : j ≤ e.elem) :
    counter_engine.steps G j e = { e with elem := e.elem - j } := by
  rw [steps_eq_run, run_drain G j e h]

theorem steps_block (G : CBRNG) (e : counter_engine) (h0 : e.elem = 0) (j : Nat)
    (h1 : 1 ≤ j) (hj : j ≤ G.N) :
    counter_engine.steps G j e =
      { b := e.b, c := incr_array G.uint_type e.c, elem := G.N - j,
        v := G.mix e.b (incr_array G.uint_type e.c) } := by
  rw [steps_eq_run, run_block G e h0 j h1 hj]

/-! ## Repeated increments and skipping -/

theorem incr_iter_spec (U : Uint) (m : Nat) (c : List Nat) (h : words_ok U c) :
    ((incr_array U)^[m] c).length = c.length ∧
    words_ok U ((incr_array U)^[m] c) ∧
    ctr_val U ((incr_array U)^[m] c) = (ctr_val U c + m) % 2 ^ (U.digits * c.length) := by
  induction m with
  | zero =>
    refine ⟨rfl, h, ?_⟩
    rw [Function.iterate_zero, id, Nat.add_zero, Nat.mod_eq_of_lt (ctr_val_lt U c h)]
  | succ m ih =>
    obtain ⟨hl, hok, hv⟩ := ih
    rw [Function.iterate_succ_apply']
    refine ⟨by rw [incr_array_length, hl], incr_array_ok U _ hok, ?_⟩
    rw [incr_array_val U _ hok, hv, hl, Nat.mod_add_mod, Nat.add_assoc]

theorem incr_array_by_zero (U : Uint) (c : List Nat) : incr_array_by U c 0 = c := by
  cases c <;> simp [incr_array_by]

/-- Adding `q` in one go is `q` single increments. -/
theorem incr_array_by_eq_iter (U : Uint) (c : List Nat) (h : words_ok U c) (q : Nat)
    (hq : q < 2 ^ 64) : incr_array_by U c q = (incr_array U)^[q] c := by
  obtain ⟨hl, hok, hv⟩ := incr_array_by_spec U c h q hq
  obtain ⟨hl2, hok2, hv2⟩ := incr_iter_spec U q c h
  exact ctr_val_inj U _ _ hok hok2 (by rw [hl, hl2]) (by rw [hv, hv2])

theorem discard_drop_eq (elem skip : Nat) :
    discard_drop elem skip = (elem - skip, skip - elem) := by
  induction elem generalizing skip with
  | zero => simp [discard_drop]
  | succ elem ih =>
    cases skip with
    | zero => simp [discard_drop]
    | succ skip => simp [discard_drop, ih]

/-- After `q` whole blocks from an empty buffer. -/
theorem steps_blocks (G : CBRNG) (q : Nat) (e : counter_engine) (h0 : e.elem = 0)
    (hN : 0 < G.N) :
    (counter_engine.steps G (q * G.N) e).b = e.b ∧
    (counter_engine.steps G (q * G.N) e).c = (incr_array G.uint_type)^[q] e.c ∧
    (counter_engine.steps G (q * G.N) e).elem = 0 := by
  induction q generalizing e with
  | zero => simp [counter_engine.steps, h0]
  | succ q ih =>
    rw [Nat.succ_mul, Nat.add_comm, steps_add, steps_block G e h0 G.N hN (Nat.le_refl _)]
    obtain ⟨hb, hc, he⟩ := ih
      { b := e.b, c := incr_array G.uint_type e.c, elem := G.N - G.N,
        v := G.mix e.b (incr_array G.uint_type e.c) } (by simp)
    exact ⟨hb, by rw [hc, Function.iterate_succ_apply], he⟩

/-- Skipping against stepping, on every well-formed state. -/
theorem discard_vs_steps (G : CBRNG) (hN : 0 < G.N) (e : counter_engine)
    (hc : ctr_ok G e.c) (n : Nat) (hn : n < 2 ^ 64) :
    (e.discard G n).c = (counter_engine.steps G n e).c ∧
    (e.discard G n).elem = (counter_engine.steps G n e).elem ∧
    (e.discard G n).b = (counter_engine.steps G n e).b ∧
    ((counter_engine.steps G n e).elem ≠ 0 ∨ n ≤ e.elem →
      (e.discard G n).v = (counter_engine.steps G n e).v) := by
  unfold counter_engine.discard
  simp only [discard_drop_eq]
  by_cases hle : n ≤ e.elem
  · have h1 : n - e.elem = 0 := by omega
    rw [h1, Nat.zero_div, Nat.zero_mod, incr_array_by_zero, steps_drain G n e hle]
    simp [counter_engine.steps]
  · have h1 : e.elem - n = 0 := by omega
    have hsplit : n = e.elem + ((n - e.elem) / G.N * G.N + (n - e.elem) % G.N) := by
      have := Nat.div_add_mod (n - e.elem) G.N
      rw [Nat.mul_comm] at this
      omega
    have hq : (n - e.elem) / G.N < 2 ^ 64 :=
      Nat.lt_of_le_of_lt (Nat.div_le_self _ _) (by omega)
    have hr : (n - e.elem) % G.N < G.N := Nat.mod_lt _ hN
    generalize (n - e.elem) / G.N = q at *
    generalize (n - e.elem) % G.N = r at *
    rw [h1, incr_array_by_eq_iter _ _ hc.2 q hq]
    conv => enter [1, 2]; rw [hsplit]
    conv => enter [2, 1, 2]; rw [hsplit]
    conv => enter [2, 2, 1, 2]; rw [hsplit]
    conv => enter [2, 2, 2, 1, 1, 1]; rw [hsplit]
    conv => enter [2, 2, 2, 2, 2]; rw [hsplit]
    rw [steps_add, steps_add, steps_drain G e.elem e (Nat.le_refl _), Nat.sub_self]
    obtain ⟨hb, hcc, he⟩ := steps_blocks G q { e with elem := 0 } rfl hN
    simp only at hb hcc
    by_cases hr0 : r = 0
    · subst hr0
      simp only [counter_engine.steps, hb, hcc, he]
      refine ⟨trivial, trivial, trivial, ?_⟩
      rintro (h | h)
      · exact absurd rfl h
      · exact absurd h hle
    · rw [steps_block G _ rfl r (by omega) (by omega),
        steps_block G _ he r (by omega) (by omega), hb, hcc]
      simp

/-- After at least one whole block from an empty buffer, the buffer is the block
of the key and counter reached. -/
theorem steps_blocks_buffer (G : CBRNG) (q : Nat) (e : counter_engine) (h0 : e.elem = 0)
    (hN : 0 < G.N) (hq : 1 ≤ q) :
    (counter_engine.steps G (q * G.N) e).v =
      G.mix (counter_engine.steps G (q * G.N) e).b (counter_engine.steps G (q * G.N) e).c := by
  obtain ⟨q, rfl⟩ : ∃ q', q = q' + 1 := ⟨q - 1, by omega⟩
  obtain ⟨_, _, he⟩ := steps_blocks G q e h0 hN
  rw [Nat.succ_mul, steps_add, steps_block G _ he G.N hN (Nat.le_refl _)]

/-- A skip past the buffered words lands on a block boundary exactly when the
rest of the skip is a multiple of `N`; `discard` then leaves the buffer alone. -/
theorem discard_boundary (G : CBRNG) (hN : 0 < G.N) (e : counter_engine) (n : Nat)
    (hlt : e.elem < n) :
    ((e.discard G n).elem = 0 ↔ (n - e.elem) % G.N = 0) ∧
    ((n - e.elem) % G.N = 0 → (e.discard G n).v = e.v) := by
  have h1 : e.elem - n = 0 := by omega
  have hr : (n - e.elem) % G.N < G.N := Nat.mod_lt _ hN
  unfold counter_engine.discard
  simp only [discard_drop_eq, h1]
  generalize (n - e.elem) % G.N = r at *
  by_cases hr0 : r = 0
  · subst hr0
    simp [counter_engine.steps]
  · rw [steps_block G _ rfl r (by omega) (by omega)]
    simp only
    constructor
    · constructor
      · intro h; omega
      · intro h; exact absurd h hr0
    · intro h; exact absurd h hr0

/-- The same skip done call by call leaves the block of the counter reached. -/
theorem steps_boundary (G : CBRNG) (hN : 0 < G.N) (e : counter_engine) (n : Nat)
    (hlt : e.elem < n) (hrem : (n - e.elem) % G.N = 0) :
    (counter_engine.steps G n e).v =
      G.mix (counter_engine.steps G n e).b (counter_engine.steps G n e).c := by
  have hsplit : n = e.elem + (n - e.elem) / G.N * G.N := by
    have := Nat.div_add_mod (n - e.elem) G.N
    rw [hrem, Nat.mul_comm] at this
    omega
  have hq : 1 ≤ (n - e.elem) / G.N := by
    by_contra h
    have h0 : (n - e.elem) / G.N = 0 := Nat.eq_zero_of_not_pos h
    rw [h0] at hsplit
    omega
  generalize (n - e.elem) / G.N = q at hsplit hq
  subst hsplit
  rw [steps_add, steps_drain G e.elem e (Nat.le_refl _), Nat.sub_self]
  exact steps_blocks_buffer G q _ rfl hN hq

/-! ## Invariants of reachable states -/

theorem next_buffer_ok (G : CBRNG) (e : counter_engine) (h : buffer_ok G e) :
    buffer_ok G (e.next G).2 := by
  by_cases h0 : e.elem = 0
  · rw [next_refill G e h0]
    intro _
    rfl
  · rw [next_buffered G e h0]
    intro _
    exact h h0

theorem steps_buffer_ok (G : CBRNG) (n : Nat) (e : counter_engine) (h : buffer_ok G e) :
    buffer_ok G (counter_engine.steps G n e) := by
  induction n generalizing e with
  | zero => exact h
  | succ n ih => exact ih _ (next_buffer_ok G e h)

theorem discard_buffer_ok (G : CBRNG) (e : counter_engine) (n : Nat) (h : buffer_ok G e) :
    buffer_ok G (e.discard G n) := by
  unfold counter_engine.discard
  simp only [discard_drop_eq]
  apply steps_buffer_ok
  intro hne
  simp only at hne ⊢
  have h1 : n - e.elem = 0 := by omega
  rw [h1, Nat.zero_div, incr_array_by_zero]
  exact h (by omega)

theorem reachable_buffer_ok (G : CBRNG) (e : counter_engine) (h : Reachable G e) :
    buffer_ok G e := by
  induction h with
  | from_key uk v => intro h; exact absurd rfl h
  | from_scalar r v => intro h; exact absurd rfl h
  | from_default v => intro h; exact absurd rfl h
  | next _ ih => exact next_buffer_ok G _ ih
  | generate_block _ _ => intro h; exact absurd rfl h
  | discard skip _ _ ih => exact discard_buffer_ok G _ skip ih

theorem next_ctr_ok (G : CBRNG) (e : counter_engine) (h : ctr_ok G e.c) :
    ctr_ok G (e.next G).2.c := by
  by_cases h0 : e.elem = 0
  · rw [next_refill G e h0]
    exact ⟨by simp only [incr_array_length]; exact h.1, incr_array_ok _ _ h.2⟩
  · rw [next_buffered G e h0]
    exact h

theorem steps_ctr_ok (G : CBRNG) (n : Nat) (e : counter_engine) (h : ctr_ok G e.c) :
    ctr_ok G (counter_engine.steps G n e).c := by
  induction n generalizing e with
  | zero => exact h
  | succ n ih => exact ih _ (next_ctr_ok G e h)

theorem discard_ctr_ok (G : CBRNG) (e : counter_engine) (n : Nat) (hn : n < 2 ^ 64)
    (h : ctr_ok G e.c) : ctr_ok G (e.discard G n).c := by
  unfold counter_engine.discard
  simp only [discard_drop_eq]
  apply steps_ctr_ok
  have hq : (n - e.elem) / G.N < 2 ^ 64 :=
    Nat.lt_of_le_of_lt (Nat.div_le_self _ _) (by omega)
  obtain ⟨hl, hok, _⟩ := incr_array_by_spec G.uint_type e.c h.2 _ hq
  exact ⟨by simp only [hl]; exact h.1, hok⟩

theorem ctr_ok_zero (G : CBRNG) : ctr_ok G (List.replicate G.N 0) :=
  ⟨List.length_replicate _ _, words_ok_replicate_zero _ _⟩

theorem reachable_ctr_ok (G : CBRNG) (e : counter_engine) (h : Reachable G e) :
    ctr_ok G e.c := by
  induction h with
  | from_key uk v => exact ctr_ok_zero G
  | from_scalar r v => exact ctr_ok_zero G
  | from_default v => exact ctr_ok_zero G
  | next _ ih => exact next_ctr_ok G _ ih
  | generate_block _ ih =>
    exact ⟨by simp only [counter_engine.generate_block, incr_array_length]; exact ih.1,
      incr_array_ok _ _ ih.2⟩
  | discard skip hs _ ih => exact discard_ctr_ok G _ skip hs ih

/-! ## Indistinguishable states -/

theorem next_obs_eq (G : CBRNG) (e1 e2 : counter_engine) (h : obs_eq e1 e2) :
    (e1.next G).1 = (e2.next G).1 ∧ obs_eq (e1.next G).2 (e2.next G).2 := by
  obtain ⟨hc, he, hb, hv⟩ := h
  by_cases h0 : e1.elem = 0
  · have h0' : e2.elem = 0 := he ▸ h0
    rw [next_refill G e1 h0, next_refill G e2 h0', hc, hb]
    exact ⟨rfl, rfl, rfl, rfl, fun _ => rfl⟩
  · have h0' : e2.elem ≠ 0 := he ▸ h0
    rw [next_buffered G e1 h0, next_buffered G e2 h0', hv h0, he]
    exact ⟨rfl, hc, rfl, hb, fun _ => rfl⟩

theorem run_obs_eq (G : CBRNG) (m : Nat) (e1 e2 : counter_engine) (h : obs_eq e1 e2) :
    (counter_engine.run G m e1).1 = (counter_engine.run G m e2).1 ∧
    obs_eq (counter_engine.run G m e1).2 (counter_engine.run G m e2).2 := by
  induction m generalizing e1 e2 with
  | zero => exact ⟨rfl, h⟩
  | succ m ih =>
    obtain ⟨ho, hs⟩ := next_obs_eq G e1 e2 h
    obtain ⟨ho2, hs2⟩ := ih _ _ hs
    simp only [counter_engine.run]
    exact ⟨by rw [ho, ho2], hs2⟩

theorem reachable_steps (G : CBRNG) (n : Nat) (e : counter_engine) (h : Reachable G e) :
    Reachable G (counter_engine.steps G n e) := by
  induction n generalizing e with
  | zero => exact h
  | succ n ih => exact ih _ (Reachable.next h)

/-- The word returned by call number `i + 1` from an empty buffer. -/
theorem next_after_steps (G : CBRNG) (hN : 0 < G.N) (e : counter_engine) (h0 : e.elem = 0)
    (i : Nat) :
    ((counter_engine.steps G i e).next G).1 =
      rd (G.mix e.b ((incr_array G.uint_type)^[i / G.N + 1] e.c)) (G.N - 1 - i % G.N) := by
  have hsplit : i = i / G.N * G.N + i % G.N := by
    have := Nat.div_add_mod i G.N
    rw [Nat.mul_comm] at this
    omega
  have hr : i % G.N < G.N := Nat.mod_lt _ hN
  generalize i / G.N = q at *
  generalize i % G.N = r at *
  subst hsplit
  obtain ⟨hb, hc, he⟩ := steps_blocks G q e h0 hN
  rw [steps_add, Function.iterate_succ_apply']
  by_cases hr0 : r = 0
  · subst hr0
    simp only [counter_engine.steps]
    rw [next_refill G _ he, hb, hc]
    rfl
  · rw [steps_block G _ he r (by omega) (by omega), next_buffered G _ (by simp only; omega),
      hb, hc]
    simp only
    congr 1
    omega

/-- Counting up from the all-zero counter gives the encodings of 1, 2, 3, ... -/
theorem incr_iter_zero (G : CBRNG) (m : Nat) :
    (incr_array G.uint_type)^[m] (List.replicate G.N 0) =
      ctr_enc G.uint_type G.N (m % 2 ^ (G.N * G.uint_type.digits)) := by
  obtain ⟨hl, hok, hv⟩ :=
    incr_iter_spec G.uint_type m (List.replicate G.N 0) (words_ok_replicate_zero _ _)
  rw [List.length_replicate] at hl hv
  apply ctr_val_inj _ _ _ hok (ctr_enc_ok _ _ _)
  · rw [hl, ctr_enc_length]
  · rw [hv, ctr_val_enc, ctr_val_replicate_zero, Nat.zero_add, Nat.mul_comm G.N, Nat.mod_mod]

/-! ## The claims -/

/-- C1: known-answer vector of the default configuration. `threefry4x64` (N = 4,
64-bit words, 20 rounds) with the all-zero key applied to the all-zero counter
returns the published Threefry-4x64-20 vector. -/
theorem C1_known_answer_4x64_zero :
    threefry4x64 [0, 0, 0, 0] [0, 0, 0, 0] =
      [0x09218ebde6c85537, 0x55941f5266d86105, 0x4bd25e16282434dc, 0xee29ec846bd2e40b] := by
  decide

/-- C2: known-answer vector with a non-zero input. `threefry2x32` (N = 2, 32-bit
words, 20 rounds) with key (0x13198a2e, 0x03707344) applied to the counter
(0x243f6a88, 0x85a308d3) returns (0xc4923a9c, 0x483df7a0). -/
theorem C2_known_answer_2x32_pi :
    threefry2x32 [0x13198a2e, 0x03707344] [0x243f6a88, 0x85a308d3] =
      [0xc4923a9c, 0x483df7a0] := by
  decide

/-- C3: buffer drain order. From any state with `elem = 0`, the first `j` calls of
`operator()` (for every `1 ≤ j ≤ N`) return words `N-1, N-2, ...` of the block
`B = mix_key(incr_array c)`, and leave the key unchanged, the counter incremented
once, the buffer equal to `B` and `elem = N - j`; after `N` calls `elem = 0`. For
`N = 4` the four words are `B[3], B[2], B[1], B[0]`. On a well-formed counter the
increment is `+1` modulo `2^(N*W)` on the little-endian value. -/
theorem C3_buffer_drain_order (G : CBRNG) (e : counter_engine) (h0 : e.elem = 0)
    (hN : 0 < G.N) :
    (∀ j, 1 ≤ j → j ≤ G.N →
      counter_engine.run G j e =
        ((List.range j).map
            (fun i => rd (G.mix e.b (incr_array G.uint_type e.c)) (G.N - 1 - i)),
          { b := e.b, c := incr_array G.uint_type e.c, elem := G.N - j,
            v := G.mix e.b (incr_array G.uint_type e.c) })) ∧
    counter_engine.run G G.N e =
      ((List.range G.N).map
          (fun i => rd (G.mix e.b (incr_array G.uint_type e.c)) (G.N - 1 - i)),
        { b := e.b, c := incr_array G.uint_type e.c, elem := 0,
          v := G.mix e.b (incr_array G.uint_type e.c) }) ∧
    (G.N = 4 →
      (counter_engine.run G 4 e).1 =
        [rd (G.mix e.b (incr_array G.uint_type e.c)) 3,
         rd (G.mix e.b (incr_array G.uint_type e.c)) 2,
         rd (G.mix e.b (incr_array G.uint_type e.c)) 1,
         rd (G.mix e.b (incr_array G.uint_type e.c)) 0]) ∧
    (ctr_ok G e.c →
      ctr_val G.uint_type (incr_array G.uint_type e.c) =
        (ctr_val G.uint_type e.c + 1) % 2 ^ (G.N * G.uint_type.digits)) := by
  refine ⟨fun j h1 hj => run_block G e h0 j h1 hj, ?_, ?_, ?_⟩
  · rw [run_block G e h0 G.N hN (Nat.le_refl _), Nat.sub_self]
  · intro h4
    rw [run_block G e h0 4 (by decide) (by omega), h4]
    rfl
  · intro hc
    rw [incr_array_val _ _ hc.2, hc.1, Nat.mul_comm]

/-- C3 at the default-constructed `counter_engine<threefry4x64>`. -/
theorem C3_buffer_drain_order_witness :
    (counter_engine.from_default engine4x64 [0, 0, 0, 0]).elem = 0 ∧ 0 < engine4x64.N ∧
    ((counter_engine.run engine4x64 4 (counter_engine.from_default engine4x64 [0, 0, 0, 0])).1 =
      [rd (threefry4x64 [0, 0, 0, 0] [1, 0, 0, 0]) 3,
       rd (threefry4x64 [0, 0, 0, 0] [1, 0, 0, 0]) 2,
       rd (threefry4x64 [0, 0, 0, 0] [1, 0, 0, 0]) 1,
       rd (threefry4x64 [0, 0, 0, 0] [1, 0, 0, 0]) 0]) :=
  ⟨rfl, by decide,
    (C3_buffer_drain_order engine4x64 (counter_engine.from_default engine4x64 [0, 0, 0, 0])
      rfl (by decide)).2.2.1 rfl⟩

/-- C4: random access into the stream. For the engine constructed from (or
seeded with) the key `k`, call number `i + 1` of `operator()` returns word
`N - 1 - (i mod N)` of `mix_k(C)`, where `C` is the `N`-word little-endian
encoding of `(i / N + 1) mod 2^(N*W)`; the first `N` calls serve the block of
counter value 1. The scalar and default constructors and every `seed` produce
such a state. -/
theorem C4_random_access (G : CBRNG) (hN : 0 < G.N) (k v_uninit : List Nat) (i : Nat) :
    ((counter_engine.steps G i (counter_engine.from_key G k v_uninit)).next G).1 =
      rd (G.mix k (ctr_enc G.uint_type G.N ((i / G.N + 1) % 2 ^ (G.N * G.uint_type.digits))))
        (G.N - 1 - i % G.N) ∧
    (i < G.N →
      ((counter_engine.steps G i (counter_engine.from_key G k v_uninit)).next G).1 =
        rd (G.mix k (ctr_enc G.uint_type G.N 1)) (G.N - 1 - i)) ∧
    (∀ r, counter_engine.from_scalar G r v_uninit =
      counter_engine.from_key G (List.replicate G.N r) v_uninit) ∧
    counter_engine.from_default G v_uninit =
      counter_engine.from_key G (List.replicate G.N 0) v_uninit ∧
    (∀ e, counter_engine.seed_key G e k v_uninit = counter_engine.from_key G k v_uninit) ∧
    (∀ e r, counter_engine.seed_scalar G e r v_uninit =
      counter_engine.from_key G (List.replicate G.N r) v_uninit) ∧
    (∀ e, counter_engine.seed_default G e v_uninit =
      counter_engine.from_key G (List.replicate G.N 0) v_uninit) := by
  have key := next_after_steps G hN (counter_engine.from_key G k v_uninit) rfl i
  simp only [counter_engine.from_key] at key
  rw [incr_iter_zero] at key
  refine ⟨key, ?_, fun _ => rfl, rfl, fun _ => rfl, fun _ _ => rfl, fun _ => rfl⟩
  intro hi
  have hpos : 0 < G.N * G.uint_type.digits := Nat.mul_pos hN G.uint_type.digits_pos
  have h1 : 1 < 2 ^ (G.N * G.uint_type.digits) := Nat.one_lt_two_pow (by omega)
  simp only [counter_engine.from_key]
  rw [key, Nat.div_eq_of_lt hi, Nat.zero_add, Nat.mod_eq_of_lt h1, Nat.mod_eq_of_lt hi]

/-- C4 at `counter_engine<threefry2x32>` with key (1, 2), sixth call. -/
theorem C4_random_access_witness :
    0 < engine2x32.N ∧
    ((counter_engine.steps engine2x32 5 (counter_engine.from_key engine2x32 [1, 2] [0, 0])).next
        engine2x32).1 =
      rd (engine2x32.mix [1, 2] (ctr_enc engine2x32.uint_type engine2x32.N
        ((5 / engine2x32.N + 1) % 2 ^ (engine2x32.N * engine2x32.uint_type.digits))))
        (engine2x32.N - 1 - 5 % engine2x32.N) :=
  ⟨by decide, (C4_random_access engine2x32 (by decide) [1, 2] [0, 0] 5).1⟩

/-- C5: skip-equivalence. For every reachable engine `e` and every `n < 2^64`,
the engine after `n` calls of `operator()` and the engine after `discard(n)` are
equal under `operator==`, and any number `m` of further calls returns the same
words from both. -/
theorem C5_skip_equivalence (G : CBRNG) (hN : 0 < G.N) (e : counter_engine)
    (hr : Reachable G e) (n : Nat) (hn : n < 2 ^ 64) :
    (counter_engine.steps G n e).eq (e.discard G n) = true ∧
    ∀ m, (counter_engine.run G m (counter_engine.steps G n e)).1 =
      (counter_engine.run G m (e.discard G n)).1 := by
  obtain ⟨hc, he, hb, hv⟩ := discard_vs_steps G hN e (reachable_ctr_ok G e hr) n hn
  refine ⟨by simp [counter_engine.eq, hc, he, hb], fun m => ?_⟩
  exact (run_obs_eq G m _ _ ⟨hc.symm, he.symm, hb.symm, fun h => (hv (Or.inl h)).symm⟩).1

/-- C5 at `counter_engine<threefry4x32>`, three words consumed, then skipping 1000. -/
theorem C5_skip_equivalence_witness :
    0 < engine4x32.N ∧
    Reachable engine4x32
      (counter_engine.steps engine4x32 3 (counter_engine.from_default engine4x32 [])) ∧
    1000 < 2 ^ 64 ∧
    (counter_engine.steps engine4x32 1000
      (counter_engine.steps engine4x32 3 (counter_engine.from_default engine4x32 []))).eq
      ((counter_engine.steps engine4x32 3 (counter_engine.from_default engine4x32 [])).discard
        engine4x32 1000) = true :=
  ⟨by decide, reachable_steps _ _ _ (Reachable.from_default _), by norm_num,
    (C5_skip_equivalence engine4x32 (by decide) _
      (reachable_steps _ _ _ (Reachable.from_default _)) 1000 (by norm_num)).1⟩

/-- C6, as stated, fails: in `counter_engine<threefry2x32>` after two calls
(counter 1, `elem = 0`, buffer = block of counter 1), `discard(2)` keeps the
buffer while two further calls replace it with the block of counter 2. -/
theorem C6_skip_buffer_counterexample :
    Reachable engine2x32
      (counter_engine.steps engine2x32 2 (counter_engine.from_default engine2x32 [0, 0])) ∧
    ((counter_engine.steps engine2x32 2
        (counter_engine.from_default engine2x32 [0, 0])).discard engine2x32 2).v ≠
      (counter_engine.steps engine2x32 2
        (counter_engine.steps engine2x32 2
          (counter_engine.from_default engine2x32 [0, 0]))).v :=
  ⟨reachable_steps _ _ _ (Reachable.from_default _), by decide⟩

/-- C6, amended: for every well-formed engine state and every `n < 2^64`,
`discard(n)` leaves the same counter, the same `elem` and the same key as `n`
calls of `operator()`, and the same buffer `v` whenever words remain to be
served afterwards (`elem ≠ 0`) or no refill was due (`n ≤ elem`). In the
remaining case, `n > elem` and `(n - elem) mod N = 0` (for `n > elem` this is
exactly when the resulting `elem` is 0), `discard(n)` leaves `v` as it was
before the call while the `n` calls leave `v = mix_key(counter)` for the
resulting key and counter, so the two buffers agree there exactly when the old
buffer already is that block. -/
theorem C6_skip_state (G : CBRNG) (hN : 0 < G.N) (e : counter_engine)
    (hc : ctr_ok G e.c) (n : Nat) (hn : n < 2 ^ 64) :
    (e.discard G n).c = (counter_engine.steps G n e).c ∧
    (e.discard G n).elem = (counter_engine.steps G n e).elem ∧
    (e.discard G n).b = (counter_engine.steps G n e).b ∧
    ((e.discard G n).elem ≠ 0 ∨ n ≤ e.elem →
      (e.discard G n).v = (counter_engine.steps G n e).v) ∧
    (e.elem < n → ((e.discard G n).elem = 0 ↔ (n - e.elem) % G.N = 0)) ∧
    (e.elem < n → (n - e.elem) % G.N = 0 →
      (e.discard G n).v = e.v ∧
      (counter_engine.steps G n e).v =
        G.mix (counter_engine.steps G n e).b (counter_engine.steps G n e).c ∧
      ((e.discard G n).v = (counter_engine.steps G n e).v ↔
        e.v = G.mix (e.discard G n).b (e.discard G n).c)) := by
  obtain ⟨h1, h2, h3, h4⟩ := discard_vs_steps G hN e hc n hn
  refine ⟨h1, h2, h3, fun h => h4 (by rwa [← h2]),
    fun hlt => (discard_boundary G hN e n hlt).1, fun hlt hrem => ?_⟩
  have hd := (discard_boundary G hN e n hlt).2 hrem
  have hs := steps_boundary G hN e n hlt hrem
  refine ⟨hd, hs, ?_⟩
  rw [hd, hs, h1, h3]

/-- C6 (amended) at `counter_engine<threefry2x32>` after two calls (`elem = 0`),
skipping 4, which ends on a block boundary. -/
theorem C6_skip_state_witness :
    0 < engine2x32.N ∧
    ctr_ok engine2x32 (counter_engine.steps engine2x32 2
      (counter_engine.from_default engine2x32 [0, 0])).c ∧
    4 < 2 ^ 64 ∧
    ((counter_engine.steps engine2x32 2
        (counter_engine.from_default engine2x32 [0, 0])).discard engine2x32 4).c =
      (counter_engine.steps engine2x32 4 (counter_engine.steps engine2x32 2
        (counter_engine.from_default engine2x32 [0, 0]))).c ∧
    ((counter_engine.steps engine2x32 2
        (counter_engine.from_default engine2x32 [0, 0])).discard engine2x32 4).v =
      (counter_engine.steps engine2x32 2 (counter_engine.from_default engine2x32 [0, 0])).v :=
  ⟨by decide, by decide, by norm_num,
    (C6_skip_state engine2x32 (by decide) _ (by decide) 4 (by norm_num)).1,
    ((C6_skip_state engine2x32 (by decide) _ (by decide) 4 (by norm_num)).2.2.2.2.2
      (by decide) (by decide)).1⟩

/-- C7: next-block. For every engine state (any `elem`, any buffer),
`generate_block` returns `mix_key(c + 1)` and leaves the key unchanged, the
counter equal to `c + 1` and `elem = 0`, where `c + 1` is the `N`-word counter
whose little-endian value is the old one plus one modulo `2^(N*W)`. -/
theorem C7_generate_block (G : CBRNG) (e : counter_engine) (hc : ctr_ok G e.c) :
    e.generate_block G =
      (G.mix e.b (incr_array G.uint_type e.c),
        { b := e.b, c := incr_array G.uint_type e.c, elem := 0, v := e.v }) ∧
    ctr_ok G (incr_array G.uint_type e.c) ∧
    ctr_val G.uint_type (incr_array G.uint_type e.c) =
      (ctr_val G.uint_type e.c + 1) % 2 ^ (G.N * G.uint_type.digits) := by
  refine ⟨rfl, ⟨by rw [incr_array_length]; exact hc.1, incr_array_ok _ _ hc.2⟩, ?_⟩
  rw [incr_array_val _ _ hc.2, hc.1, Nat.mul_comm]

/-- C7 at a `counter_engine<threefry2x64>` state with the all-ones low word and
`elem = 1`. -/
theorem C7_generate_block_witness :
    ctr_ok engine2x64 [2 ^ 64 - 1, 5] ∧
    (counter_engine.generate_block engine2x64
        { b := [1, 2], c := [2 ^ 64 - 1, 5], elem := 1, v := [3, 4] }).2 =
      { b := [1, 2], c := incr_array engine2x64.uint_type [2 ^ 64 - 1, 5], elem := 0,
        v := [3, 4] } :=
  ⟨by decide, congrArg Prod.snd
    (C7_generate_block engine2x64 { b := [1, 2], c := [2 ^ 64 - 1, 5], elem := 1, v := [3, 4] }
      (by decide)).1⟩

/-- C8: reseed resets state. Whatever the prior state `e`, `seed(key)` yields the
all-zero counter, `elem = 0` and the given key; `seed(r)` yields the all-zero
counter, `elem = 0` and the key whose `N` words are `r`; `seed()` yields the
all-zero counter, `elem = 0` and the all-zero key. Two reseedings with the same
argument from different prior states give the same engine, and are equal under
`operator==` whatever the uninitialised buffers hold. -/
theorem C8_reseed_resets (G : CBRNG) (e : counter_engine) (key : List Nat) (r : Nat)
    (v_uninit : List Nat) :
    ((e.seed_key G key v_uninit).c = List.replicate G.N 0 ∧
      (e.seed_key G key v_uninit).elem = 0 ∧ (e.seed_key G key v_uninit).b = key) ∧
    ((e.seed_scalar G r v_uninit).c = List.replicate G.N 0 ∧
      (e.seed_scalar G r v_uninit).elem = 0 ∧
      (e.seed_scalar G r v_uninit).b = List.replicate G.N r) ∧
    ((e.seed_default G v_uninit).c = List.replicate G.N 0 ∧
      (e.seed_default G v_uninit).elem = 0 ∧
      (e.seed_default G v_uninit).b = List.replicate G.N 0) ∧
    ctr_val G.uint_type (List.replicate G.N 0) = 0 ∧
    (∀ (e2 : counter_engine) (v2 : List Nat),
      e.seed_key G key v_uninit = e2.seed_key G key v_uninit ∧
      e.seed_scalar G r v_uninit = e2.seed_scalar G r v_uninit ∧
      e.seed_default G v_uninit = e2.seed_default G v_uninit ∧
      (e.seed_key G key v_uninit).eq (e2.seed_key G key v2) = true ∧
      (e.seed_scalar G r v_uninit).eq (e2.seed_scalar G r v2) = true ∧
      (e.seed_default G v_uninit).eq (e2.seed_default G v2) = true) := by
  refine ⟨⟨rfl, rfl, rfl⟩, ⟨rfl, rfl, rfl⟩, ⟨rfl, rfl, rfl⟩, ctr_val_replicate_zero _ _, ?_⟩
  intro e2 v2
  simp [counter_engine.eq, counter_engine.seed_key, counter_engine.seed_scalar,
    counter_engine.seed_default, counter_engine.from_key, counter_engine.from_scalar,
    counter_engine.from_default]

/-- The engine returned by `derivate`, on any state whose buffer is in step. -/
theorem derivate_of_buffer_ok (G : CBRNG) (e : counter_engine) (h : buffer_ok G e)
    (key v_uninit : List Nat) :
    e.derivate G key v_uninit =
      { b := if e.elem = 0 then G.mix key (G.mix e.b (incr_array G.uint_type e.c))
          else G.mix key (std_rotate (G.mix e.b e.c) e.elem),
        c := List.replicate G.N 0, elem := 0, v := v_uninit } := by
  by_cases h0 : e.elem = 0
  · simp only [counter_engine.derivate, counter_engine.seed_key, counter_engine.from_key,
      next_refill G e h0, h0, if_true]
    simp [std_rotate]
  · simp only [counter_engine.derivate, counter_engine.seed_key, counter_engine.from_key,
      next_buffered G e h0, h0, if_false, h h0]

set_option maxRecDepth 100000 in
/-- C9, as stated, fails: the default-constructed `counter_engine<threefry2x32>`
(`elem = 0`) derives its key from the block of the advanced counter, not from
the block of its current counter. -/
theorem C9_derivate_counterexample :
    Reachable engine2x32 (counter_engine.from_default engine2x32 [0, 0]) ∧
    (counter_engine.derivate engine2x32 (counter_engine.from_default engine2x32 [0, 0])
        [0, 0] [0, 0]).b ≠
      engine2x32.mix [0, 0]
        (std_rotate
          (engine2x32.mix (counter_engine.from_default engine2x32 [0, 0]).b
            (counter_engine.from_default engine2x32 [0, 0]).c)
          (counter_engine.from_default engine2x32 [0, 0]).elem) :=
  ⟨Reachable.from_default _, by decide⟩

/-- C9, amended: for every reachable engine state (key `k`, counter `c`, cursor
`elem`) and every new key `k2`, `derivate(k2)` returns an engine with the
all-zero counter and `elem = 0`; when `elem ≠ 0` its key is
`mix_k2(rotl_elem(mix_k(c)))`, the old-key block of the current counter rotated
left by `elem`; when `elem = 0` the generation step on the copy first advances
the counter and the key is `mix_k2(mix_k(c + 1))`. -/
theorem C9_derivate_protocol (G : CBRNG) (e : counter_engine) (hr : Reachable G e)
    (key v_uninit : List Nat) :
    (e.derivate G key v_uninit).c = List.replicate G.N 0 ∧
    (e.derivate G key v_uninit).elem = 0 ∧
    (e.elem ≠ 0 →
      (e.derivate G key v_uninit).b = G.mix key (std_rotate (G.mix e.b e.c) e.elem)) ∧
    (e.elem = 0 →
      (e.derivate G key v_uninit).b =
        G.mix key (G.mix e.b (incr_array G.uint_type e.c))) := by
  rw [derivate_of_buffer_ok G e (reachable_buffer_ok G e hr)]
  exact ⟨rfl, rfl, fun h => by simp [h], fun h => by simp [h]⟩

/-- C9 (amended) at `counter_engine<threefry4x32>` after one call (`elem = 3`). -/
theorem C9_derivate_protocol_witness :
    Reachable engine4x32
      (counter_engine.steps engine4x32 1 (counter_engine.from_scalar engine4x32 7 [])) ∧
    (counter_engine.derivate engine4x32
        (counter_engine.steps engine4x32 1 (counter_engine.from_scalar engine4x32 7 []))
        [1, 2, 3, 4] []).c = List.replicate engine4x32.N 0 :=
  ⟨reachable_steps _ _ _ (Reachable.from_scalar _ _),
    (C9_derivate_protocol engine4x32 _ (reachable_steps _ _ _ (Reachable.from_scalar _ _))
      [1, 2, 3, 4] []).1⟩

/-- C10: derivation determinism. For two reachable engines that are equal under
`operator==` (buffers not compared) and every new key, both derived engines
have the all-zero counter, `elem = 0` and the same key, so they are equal under
`operator==`. -/
theorem C10_derivation_determinism (G : CBRNG) (e1 e2 : counter_engine)
    (h1 : Reachable G e1) (h2 : Reachable G e2) (heq : e1.eq e2 = true)
    (key v1 v2 : List Nat) :
    (e1.derivate G key v1).c = List.replicate G.N 0 ∧
    (e1.derivate G key v1).elem = 0 ∧
    (e2.derivate G key v2).c = List.replicate G.N 0 ∧
    (e2.derivate G key v2).elem = 0 ∧
    (e1.derivate G key v1).b = (e2.derivate G key v2).b ∧
    (e1.derivate G key v1).eq (e2.derivate G key v2) = true := by
  simp only [counter_engine.eq, Bool.and_eq_true, decide_eq_true_eq] at heq
  obtain ⟨⟨hc, he⟩, hb⟩ := heq
  rw [derivate_of_buffer_ok G e1 (reachable_buffer_ok G e1 h1),
    derivate_of_buffer_ok G e2 (reachable_buffer_ok G e2 h2), hc, he, hb]
  simp [counter_engine.eq]

/-- C10 at two default-constructed `counter_engine<threefry2x32>` objects whose
uninitialised buffers differ. -/
theorem C10_derivation_determinism_witness :
    Reachable engine2x32 (counter_engine.from_default engine2x32 [0, 0]) ∧
    Reachable engine2x32 (counter_engine.from_default engine2x32 [7, 9]) ∧
    (counter_engine.from_default engine2x32 [0, 0]).eq
      (counter_engine.from_default engine2x32 [7, 9]) = true ∧
    (counter_engine.derivate engine2x32 (counter_engine.from_default engine2x32 [0, 0])
        [5, 6] []).b =
      (counter_engine.derivate engine2x32 (counter_engine.from_default engine2x32 [7, 9])
        [5, 6] [1]).b :=
  ⟨Reachable.from_default _, Reachable.from_default _, by decide,
    (C10_derivation_determinism engine2x32 _ _ (Reachable.from_default _)
      (Reachable.from_default _) (by decide) [5, 6] [] [1]).2.2.2.2.1⟩

/-! ## Counter period, equality, scalar derivation -/

theorem incr_array_all_ones (U : Uint) (n : Nat) :
    incr_array U (List.replicate n U.max) = List.replicate n 0 := by
  induction n with
  | zero => rfl
  | succ n ih => simp [List.replicate, incr_array, ih]

theorem incr_iter_period (U : Uint) (c : List Nat) (h : words_ok U c) (m : Nat) :
    (incr_array U)^[m] c = c ↔ 2 ^ (U.digits * c.length) ∣ m := by
  obtain ⟨hl, hok, hv⟩ := incr_iter_spec U m c h
  have hlt := ctr_val_lt U c h
  constructor
  · intro heq
    rw [heq] at hv
    have h1 : ctr_val U c + m ≡ ctr_val U c + 0 [MOD 2 ^ (U.digits * c.length)] := by
      unfold Nat.ModEq
      rw [← hv, Nat.add_zero, Nat.mod_eq_of_lt hlt]
    exact (Nat.modEq_zero_iff_dvd).1 (Nat.ModEq.add_left_cancel' _ h1)
  · intro hd
    apply ctr_val_inj U _ _ hok h hl
    rw [hv]
    obtain ⟨t, rfl⟩ := hd
    rw [Nat.add_mul_mod_self_left, Nat.mod_eq_of_lt hlt]

theorem eq_iff (e1 e2 : counter_engine) :
    e1.eq e2 = true ↔ e1.c = e2.c ∧ e1.elem = e2.elem ∧ e1.b = e2.b := by
  simp [counter_engine.eq, and_assoc]

theorem reachable_obs_eq (G : CBRNG) (e1 e2 : counter_engine) (h1 : Reachable G e1)
    (h2 : Reachable G e2) (heq : e1.eq e2 = true) : obs_eq e1 e2 := by
  obtain ⟨hc, he, hb⟩ := (eq_iff e1 e2).1 heq
  refine ⟨hc, he, hb, fun h0 => ?_⟩
  rw [reachable_buffer_ok G e1 h1 h0, reachable_buffer_ok G e2 h2 (he ▸ h0), hc, hb]

theorem reachable_elem_lt (G : CBRNG) (hN : 0 < G.N) (e : counter_engine)
    (h : Reachable G e) : e.elem < G.N := by
  have hnext : ∀ e : counter_engine, e.elem < G.N → (e.next G).2.elem < G.N := by
    intro e he
    by_cases h0 : e.elem = 0
    · rw [next_refill G e h0]; simp only; omega
    · rw [next_buffered G e h0]; simp only; omega
  have hsteps : ∀ (n : Nat) (e : counter_engine), e.elem < G.N →
      (counter_engine.steps G n e).elem < G.N := by
    intro n
    induction n with
    | zero => intro e he; exact he
    | succ n ih => intro e he; exact ih _ (hnext e he)
  induction h with
  | from_key uk v => exact hN
  | from_scalar r v => exact hN
  | from_default v => exact hN
  | next _ ih => exact hnext _ ih
  | generate_block _ _ => exact hN
  | discard skip _ _ ih =>
    unfold counter_engine.discard
    simp only [discard_drop_eq]
    apply hsteps
    simp only
    omega

/-- C11: counter increment and period. On every counter of word type `U`
(`N = c.length` words), the little-endian value is below `2^(N*W)`, the
single-step `incr_array` adds one modulo `2^(N*W)`, the all-ones counter wraps to
the all-zero one, `2^(N*W)` increments return the counter itself, and no smaller
positive number of increments does. -/
theorem C11_increment_period (U : Uint) (c : List Nat) (h : words_ok U c) :
    ctr_val U c < 2 ^ (U.digits * c.length) ∧
    ((incr_array U c).length = c.length ∧ words_ok U (incr_array U c)) ∧
    ctr_val U (incr_array U c) = (ctr_val U c + 1) % 2 ^ (U.digits * c.length) ∧
    incr_array U (List.replicate c.length U.max) = List.replicate c.length 0 ∧
    (incr_array U)^[2 ^ (U.digits * c.length)] c = c ∧
    (∀ m, 0 < m → m < 2 ^ (U.digits * c.length) → (incr_array U)^[m] c ≠ c) := by
  refine ⟨ctr_val_lt U c h, ⟨incr_array_length U c, incr_array_ok U c h⟩,
    incr_array_val U c h, incr_array_all_ones U _,
    (incr_iter_period U c h _).2 (Nat.dvd_refl _), ?_⟩
  intro m hm hlt heq
  have := Nat.le_of_dvd hm ((incr_iter_period U c h m).1 heq)
  omega

/-- C11 at the 2x32 counter (0xffffffff, 7). -/
theorem C11_increment_period_witness :
    words_ok .uint32_t [0xffffffff, 7] ∧
    ctr_val .uint32_t (incr_array .uint32_t [0xffffffff, 7]) =
      (ctr_val .uint32_t [0xffffffff, 7] + 1) %
        2 ^ (Uint.uint32_t.digits * [0xffffffff, 7].length) :=
  ⟨by decide, (C11_increment_period .uint32_t [0xffffffff, 7] (by decide)).2.2.1⟩

/-- C12: equality is observational. `operator==` holds exactly when counter,
`elem` and key are equal, `operator!=` is its negation, and two reachable
engines that are `==` return the same word from `operator()` and are `==`
again afterwards, although the buffer is not compared. -/
theorem C12_equality_observational (G : CBRNG) (e1 e2 : counter_engine) :
    (e1.eq e2 = true ↔ e1.c = e2.c ∧ e1.elem = e2.elem ∧ e1.b = e2.b) ∧
    e1.ne e2 = !(e1.eq e2) ∧
    (Reachable G e1 → Reachable G e2 → e1.eq e2 = true →
      (e1.next G).1 = (e2.next G).1 ∧ (e1.next G).2.eq (e2.next G).2 = true) := by
  refine ⟨eq_iff e1 e2, ?_, ?_⟩
  · simp only [counter_engine.ne, counter_engine.eq, Bool.not_and, decide_not]
  · intro h1 h2 heq
    obtain ⟨ho, hc, he, hb, _⟩ := next_obs_eq G e1 e2 (reachable_obs_eq G e1 e2 h1 h2 heq)
    exact ⟨ho, (eq_iff _ _).2 ⟨hc, he, hb⟩⟩

/-- C12 at two `counter_engine<threefry2x32>` objects after one call each, built
with different uninitialised buffers. -/
theorem C12_equality_observational_witness :
    Reachable engine2x32 ((counter_engine.from_default engine2x32 [0, 0]).next engine2x32).2 ∧
    Reachable engine2x32 ((counter_engine.from_default engine2x32 [7, 9]).next engine2x32).2 ∧
    ((counter_engine.from_default engine2x32 [0, 0]).next engine2x32).2.eq
      ((counter_engine.from_default engine2x32 [7, 9]).next engine2x32).2 = true ∧
    ((((counter_engine.from_default engine2x32 [0, 0]).next engine2x32).2.next engine2x32).1 =
      (((counter_engine.from_default engine2x32 [7, 9]).next engine2x32).2.next engine2x32).1) :=
  ⟨Reachable.next (Reachable.from_default _), Reachable.next (Reachable.from_default _),
    by decide,
    ((C12_equality_observational engine2x32 _ _).2.2 (Reachable.next (Reachable.from_default _))
      (Reachable.next (Reachable.from_default _)) (by decide)).1⟩

/-- C13: scalar derivation and the customization point. `derivate(r)` is
`derivate(K)` for the key `K` whose `N` words are `r`, and
`random_engine_derivate(e, r)` for a `counter_engine` is `e.derivate(r)`. -/
theorem C13_scalar_derivation (G : CBRNG) (e : counter_engine) (r : Nat)
    (v_uninit : List Nat) :
    e.derivate_scalar G r v_uninit = e.derivate G (List.replicate G.N r) v_uninit ∧
    (List.replicate G.N r).length = G.N ∧
    (∀ x ∈ List.replicate G.N r, x = r) ∧
    random_engine_derivate G e r v_uninit = e.derivate_scalar G r v_uninit :=
  ⟨rfl, List.length_replicate _ _, fun _ hx => List.eq_of_mem_replicate hx, rfl⟩

/-- C17: increment-by-k is multi-word addition with carry. On every counter of
word type `U` and every `k < 2^64`, `incr_array(start, finish, k)` keeps the
shape of the counter, adds `k` to its little-endian value modulo `2^(N*W)`, and
gives the same counter as `k` single-step increments. -/
theorem C17_increment_by_k (U : Uint) (c : List Nat) (h : words_ok U c) (k : Nat)
    (hk : k < 2 ^ 64) :
    ((incr_array_by U c k).length = c.length ∧ words_ok U (incr_array_by U c k)) ∧
    ctr_val U (incr_array_by U c k) = (ctr_val U c + k) % 2 ^ (U.digits * c.length) ∧
    incr_array_by U c k = (incr_array U)^[k] c := by
  obtain ⟨hl, hok, hv⟩ := incr_array_by_spec U c h k hk
  exact ⟨⟨hl, hok⟩, hv, incr_array_by_eq_iter U c h k hk⟩

/-- C17 at the 4x32 counter (0xffffffff, 0xffffffff, 3, 0) with k = 2^64 - 1. -/
theorem C17_increment_by_k_witness :
    words_ok .uint32_t [0xffffffff, 0xffffffff, 3, 0] ∧ 2 ^ 64 - 1 < 2 ^ 64 ∧
    ctr_val .uint32_t (incr_array_by .uint32_t [0xffffffff, 0xffffffff, 3, 0] (2 ^ 64 - 1)) =
      (ctr_val .uint32_t [0xffffffff, 0xffffffff, 3, 0] + (2 ^ 64 - 1)) %
        2 ^ (Uint.uint32_t.digits * [0xffffffff, 0xffffffff, 3, 0].length) :=
  ⟨by decide, by decide,
    (C17_increment_by_k .uint32_t [0xffffffff, 0xffffffff, 3, 0] (by decide) (2 ^ 64 - 1)
      (by decide)).2.1⟩

/-- C20: buffer invariant. In every state reachable from a constructor or seed
by `operator()`, `generate_block`, `discard` and `seed` calls, `elem < N`, and
whenever `elem ≠ 0` the buffer is `mix_key(counter)` for the current key and
counter. Every `seed` call leads to a reachable state. -/
theorem C20_buffer_invariant (G : CBRNG) (hN : 0 < G.N) (e : counter_engine)
    (hr : Reachable G e) :
    e.elem < G.N ∧ (e.elem ≠ 0 → e.v = G.mix e.b e.c) ∧
    (∀ uk r v_uninit, Reachable G (e.seed_key G uk v_uninit) ∧
      Reachable G (e.seed_scalar G r v_uninit) ∧ Reachable G (e.seed_default G v_uninit)) :=
  ⟨reachable_elem_lt G hN e hr, reachable_buffer_ok G e hr,
    fun uk r v => ⟨Reachable.from_key uk v, Reachable.from_scalar r v, Reachable.from_default v⟩⟩

/-- C20 at `counter_engine<threefry4x32>` after a skip of 6 and one call. -/
theorem C20_buffer_invariant_witness :
    0 < engine4x32.N ∧
    Reachable engine4x32
      (((counter_engine.from_scalar engine4x32 7 []).discard engine4x32 6).next engine4x32).2 ∧
    (((counter_engine.from_scalar engine4x32 7 []).discard engine4x32 6).next engine4x32).2.elem
      < engine4x32.N :=
  ⟨by decide, Reachable.next (Reachable.discard 6 (by norm_num) (Reachable.from_scalar _ _)),
    (C20_buffer_invariant engine4x32 (by decide) _
      (Reachable.next (Reachable.discard 6 (by norm_num) (Reachable.from_scalar _ _)))).1⟩

/-! ## The mixer returns words -/

theorem rd_lt (U : Uint) (a : List Nat) (i : Nat) (h : words_ok U a) :
    rd a i < 2 ^ U.digits := by
  unfold rd
  by_cases hi : i < a.length
  · rw [List.getD_eq_getElem _ _ hi]
    exact h _ (List.getElem_mem _)
  · rw [List.getD_eq_default _ _ (by omega)]
    exact U.pow_pos

theorem wr_ok (U : Uint) (a : List Nat) (i x : Nat) (h : words_ok U a)
    (hx : x < 2 ^ U.digits) : words_ok U (wr a i x) := by
  intro y hy
  rcases List.mem_or_eq_of_mem_set hy with hy | rfl
  · exact h y hy
  · exact hx

theorem threefry_rotl_lt (U : Uint) (x s : Nat) (hx : x < 2 ^ U.digits) :
    threefry_rotl U x s < 2 ^ U.digits := by
  unfold threefry_rotl
  apply Nat.or_lt_two_pow (Nat.mod_lt _ U.pow_pos)
  rw [Nat.shiftRight_eq_div_pow]
  exact Nat.lt_of_le_of_lt (Nat.div_le_self _ _) hx

theorem rounds_functor2_ok (U : Uint) (rotations : Nat → Nat) (r_max r_remain : Nat)
    (ks c : List Nat) (h : words_ok U c) :
    words_ok U (rounds_functor2 U rotations r_max r_remain ks c) := by
  induction r_remain generalizing c with
  | zero => exact h
  | succ n ih =>
    have hM := U.pow_pos
    unfold rounds_functor2
    apply ih
    have h1 : words_ok U (wr (wr (wr c 0 ((rd c 0 + rd c 1) % 2 ^ U.digits)) 1
        (threefry_rotl U (rd (wr c 0 ((rd c 0 + rd c 1) % 2 ^ U.digits)) 1)
          (rotations (r_max - (n + 1))))) 1
        (rd (wr (wr c 0 ((rd c 0 + rd c 1) % 2 ^ U.digits)) 1
          (threefry_rotl U (rd (wr c 0 ((rd c 0 + rd c 1) % 2 ^ U.digits)) 1)
            (rotations (r_max - (n + 1))))) 1 ^^^
         rd (wr (wr c 0 ((rd c 0 + rd c 1) % 2 ^ U.digits)) 1
          (threefry_rotl U (rd (wr c 0 ((rd c 0 + rd c 1) % 2 ^ U.digits)) 1)
            (rotations (r_max - (n + 1))))) 0)) := by
      have a1 := wr_ok U c 0 _ h (Nat.mod_lt (rd c 0 + rd c 1) hM)
      have a2 := wr_ok U _ 1 _ a1
        (threefry_rotl_lt U _ (rotations (r_max - (n + 1))) (rd_lt U _ 1 a1))
      exact wr_ok U _ 1 _ a2 (Nat.xor_lt_two_pow (rd_lt U _ 1 a2) (rd_lt U _ 0 a2))
    simp only
    split
    · exact wr_ok U _ 1 _ (wr_ok U _ 0 _ h1 (Nat.mod_lt _ hM)) (Nat.mod_lt _ hM)
    · exact h1

theorem rounds_functor4_ok (U : Uint) (rotations0 rotations1 : Nat → Nat)
    (r_max r_remain : Nat) (ks c : List Nat) (h : words_ok U c) :
    words_ok U (rounds_functor4 U rotations0 rotations1 r_max r_remain ks c) := by
  induction r_remain generalizing c with
  | zero => exact h
  | succ n ih =>
    have hM := U.pow_pos
    unfold rounds_functor4
    apply ih
    have mix : ∀ (i j p q s t : Nat),
        words_ok U (wr (wr (wr (wr c i ((rd c i + rd c j) % 2 ^ U.digits)) p
          ((rd (wr c i ((rd c i + rd c j) % 2 ^ U.digits)) p +
            rd (wr c i ((rd c i + rd c j) % 2 ^ U.digits)) q) % 2 ^ U.digits)) j
          (threefry_rotl U (rd (wr (wr c i ((rd c i + rd c j) % 2 ^ U.digits)) p
            ((rd (wr c i ((rd c i + rd c j) % 2 ^ U.digits)) p +
              rd (wr c i ((rd c i + rd c j) % 2 ^ U.digits)) q) % 2 ^ U.digits)) j) s ^^^
            rd (wr (wr c i ((rd c i + rd c j) % 2 ^ U.digits)) p
            ((rd (wr c i ((rd c i + rd c j) % 2 ^ U.digits)) p +
              rd (wr c i ((rd c i + rd c j) % 2 ^ U.digits)) q) % 2 ^ U.digits)) i)) q
          (threefry_rotl U (rd (wr (wr (wr c i ((rd c i + rd c j) % 2 ^ U.digits)) p
            ((rd (wr c i ((rd c i + rd c j) % 2 ^ U.digits)) p +
              rd (wr c i ((rd c i + rd c j) % 2 ^ U.digits)) q) % 2 ^ U.digits)) j
            (threefry_rotl U (rd (wr (wr c i ((rd c i + rd c j) % 2 ^ U.digits)) p
              ((rd (wr c i ((rd c i + rd c j) % 2 ^ U.digits)) p +
                rd (wr c i ((rd c i + rd c j) % 2 ^ U.digits)) q) % 2 ^ U.digits)) j) s ^^^
              rd (wr (wr c i ((rd c i + rd c j) % 2 ^ U.digits)) p
              ((rd (wr c i ((rd c i + rd c j) % 2 ^ U.digits)) p +
                rd (wr c i ((rd c i + rd c j) % 2 ^ U.digits)) q) % 2 ^ U.digits)) i)) q) t ^^^
            rd (wr (wr (wr c i ((rd c i + rd c j) % 2 ^ U.digits)) p
            ((rd (wr c i ((rd c i + rd c j) % 2 ^ U.digits)) p +
              rd (wr c i ((rd c i + rd c j) % 2 ^ U.digits)) q) % 2 ^ U.digits)) j
            (threefry_rotl U (rd (wr (wr c i ((rd c i + rd c j) % 2 ^ U.digits)) p
              ((rd (wr c i ((rd c i + rd c j) % 2 ^ U.digits)) p +
                rd (wr c i ((rd c i + rd c j) % 2 ^ U.digits)) q) % 2 ^ U.digits)) j) s ^^^
              rd (wr (wr c i ((rd c i + rd c j) % 2 ^ U.digits)) p
              ((rd (wr c i ((rd c i + rd c j) % 2 ^ U.digits)) p +
                rd (wr c i ((rd c i + rd c j) % 2 ^ U.digits)) q) % 2 ^ U.digits)) i)) p)) := by
      intro i j p q s t
      have a1 := wr_ok U c i _ h (Nat.mod_lt (rd c i + rd c j) hM)
      have a2 := wr_ok U _ p _ a1 (Nat.mod_lt
        (rd (wr c i ((rd c i + rd c j) % 2 ^ U.digits)) p +
          rd (wr c i ((rd c i + rd c j) % 2 ^ U.digits)) q) hM)
      have a3 := wr_ok U _ j _ a2
        (Nat.xor_lt_two_pow (threefry_rotl_lt U _ s (rd_lt U _ j a2)) (rd_lt U _ i a2))
      exact wr_ok U _ q _ a3
        (Nat.xor_lt_two_pow (threefry_rotl_lt U _ t (rd_lt U _ q a3)) (rd_lt U _ p a3))
    simp only
    split
    · split
      · exact wr_ok U _ 3 _ (wr_ok U _ 2 _ (wr_ok U _ 1 _ (wr_ok U _ 0 _ (mix 0 3 2 1 _ _)
          (Nat.mod_lt _ hM)) (Nat.mod_lt _ hM)) (Nat.mod_lt _ hM)) (Nat.mod_lt _ hM)
      · exact mix 0 3 2 1 _ _
    · exact mix 0 1 2 3 _ _

theorem threefry_add_key_ok (U : Uint) (k c : List Nat) : words_ok U (threefry_add_key U k c) := by
  intro y hy
  unfold threefry_add_key at hy
  rw [List.mem_iff_getElem] at hy
  obtain ⟨i, hi, rfl⟩ := hy
  rw [List.getElem_zipWith]
  exact Nat.mod_lt _ U.pow_pos

theorem threefry2_ok (U : Uint) (R : Nat) (rotations : Nat → Nat) (k c : List Nat) :
    words_ok U (threefry2 U R rotations k c) :=
  rounds_functor2_ok U rotations R R _ _ (threefry_add_key_ok U k c)

theorem threefry4_ok (U : Uint) (R : Nat) (rotations0 rotations1 : Nat → Nat)
    (k c : List Nat) : words_ok U (threefry4 U R rotations0 rotations1 k c) :=
  rounds_functor4_ok U rotations0 rotations1 R R _ _ (threefry_add_key_ok U k c)

/-- The four engines built on Threefry have a mixer that returns words. -/
theorem engine_mix_ok (G : CBRNG)
    (hG : G = engine2x32 ∨ G = engine4x32 ∨ G = engine2x64 ∨ G = engine4x64)
    (k c : List Nat) : words_ok G.uint_type (G.mix k c) := by
  rcases hG with rfl | rfl | rfl | rfl
  · simp only [engine2x32, threefry2x32]
    exact threefry2_ok _ _ _ k c
  · simp only [engine4x32, threefry4x32]
    exact threefry4_ok _ _ _ _ k c
  · simp only [engine2x64, threefry2x64]
    exact threefry2_ok _ _ _ k c
  · simp only [engine4x64, threefry4x64]
    exact threefry4_ok _ _ _ _ k c

theorem next_lt (G : CBRNG) (hmix : ∀ k c, words_ok G.uint_type (G.mix k c))
    (e : counter_engine) (hb : buffer_ok G e) : (e.next G).1 < 2 ^ G.uint_type.digits := by
  by_cases h0 : e.elem = 0
  · rw [next_refill G e h0]
    exact rd_lt _ _ _ (hmix _ _)
  · rw [next_buffered G e h0, hb h0]
    exact rd_lt _ _ _ (hmix _ _)

/-- C14: full-range generator. For the four Threefry engines (`W` = 32 or 64),
`min() = 0` and `max() = 2^W - 1`, every word returned by `operator()` from a
reachable state lies in `[min(), max()]`, and that interval is the whole range
of the word type. -/
theorem C14_full_range (G : CBRNG)
    (hG : G = engine2x32 ∨ G = engine4x32 ∨ G = engine2x64 ∨ G = engine4x64)
    (e : counter_engine) (hr : Reachable G e) :
    counter_engine.min G = 0 ∧
    counter_engine.max G = 2 ^ G.uint_type.digits - 1 ∧
    (G.uint_type.digits = 32 ∨ G.uint_type.digits = 64) ∧
    (counter_engine.min G ≤ (e.next G).1 ∧ (e.next G).1 ≤ counter_engine.max G) ∧
    (∀ x, x < 2 ^ G.uint_type.digits ↔
      counter_engine.min G ≤ x ∧ x ≤ counter_engine.max G) := by
  have hlt := next_lt G (engine_mix_ok G hG) e (reachable_buffer_ok G e hr)
  have hM := G.uint_type.pow_pos
  have hmax : counter_engine.max G = 2 ^ G.uint_type.digits - 1 := rfl
  refine ⟨rfl, hmax, ?_, ⟨Nat.zero_le _, ?_⟩, fun x => ?_⟩
  · rcases hG with rfl | rfl | rfl | rfl
    · exact Or.inl rfl
    · exact Or.inl rfl
    · exact Or.inr rfl
    · exact Or.inr rfl
  · rw [hmax]; omega
  · rw [hmax]
    constructor
    · intro hx; exact ⟨Nat.zero_le _, by omega⟩
    · intro hx; omega

/-- C14 at `counter_engine<threefry4x64>` after five calls. -/
theorem C14_full_range_witness :
    Reachable engine4x64
      (counter_engine.steps engine4x64 5 (counter_engine.from_default engine4x64 [])) ∧
    ((counter_engine.steps engine4x64 5 (counter_engine.from_default engine4x64 [])).next
      engine4x64).1 ≤ counter_engine.max engine4x64 :=
  ⟨reachable_steps _ _ _ (Reachable.from_default _),
    (C14_full_range engine4x64 (Or.inr (Or.inr (Or.inr rfl))) _
      (reachable_steps _ _ _ (Reachable.from_default _))).2.2.2.1.2⟩

/-! ## The unrolled rounds are the loop -/

theorem length_two {a : List Nat} (h : a.length = 2) : ∃ x y, a = [x, y] := by
  match a, h with
  | [x, y], _ => exact ⟨x, y, rfl⟩

theorem length_four {a : List Nat} (h : a.length = 4) : ∃ x y z w, a = [x, y, z, w] := by
  match a, h with
  | [x, y, z, w], _ => exact ⟨x, y, z, w, rfl⟩

theorem loop_step2_length (U : Uint) (rot ks s : List Nat) (r : Nat) (h : s.length = 2) :
    (loop_step U 2 (loop_round2 U rot) ks s r).length = 2 := by
  obtain ⟨x, y, rfl⟩ := length_two h
  unfold loop_step
  simp only [loop_round2, loop_inject, loop_add_ks, wr]
  split <;> simp

theorem loop_step4_length (U : Uint) (rot0 rot1 ks s : List Nat) (r : Nat)
    (h : s.length = 4) :
    (loop_step U 4 (loop_round4 U rot0 rot1) ks s r).length = 4 := by
  obtain ⟨x, y, z, w, rfl⟩ := length_four h
  unfold loop_step
  simp only [loop_round4, loop_inject, loop_add_ks, wr]
  split <;> split <;> simp [loop_add_ks]

theorem rounds_functor2_eq_foldl (U : Uint) (rot ks : List Nat) (r_max r_remain : Nat)
    (c : List Nat) (hr : r_remain ≤ r_max) (hc : c.length = 2) :
    rounds_functor2 U (fun pos => rd rot (pos % 8)) r_max r_remain ks c =
      (List.range' (r_max - r_remain) r_remain).foldl
        (loop_step U 2 (loop_round2 U rot) ks) c := by
  induction r_remain generalizing c with
  | zero => rfl
  | succ n ih =>
    have hsucc : r_max - (n + 1) + 1 = r_max - n := by omega
    rw [List.range'_succ, List.foldl_cons, hsucc,
      ← ih _ (by omega) (loop_step2_length U rot ks c _ hc), rounds_functor2]
    congr 1
    obtain ⟨x, y, rfl⟩ := length_two hc
    simp only [loop_step, loop_round2, loop_inject, loop_add_ks, wr, rd, List.set_cons_zero,
      List.set_cons_succ, List.getD_cons_zero, List.getD_cons_succ, Nat.shiftRight_eq_div_pow]
    split
    · simp [Nat.add_assoc]
    · rfl

theorem rounds_functor4_eq_foldl (U : Uint) (rot0 rot1 ks : List Nat) (r_max r_remain : Nat)
    (c : List Nat) (hr : r_remain ≤ r_max) (hc : c.length = 4) :
    rounds_functor4 U (fun pos => rd rot0 (pos % 8)) (fun pos => rd rot1 (pos % 8))
        r_max r_remain ks c =
      (List.range' (r_max - r_remain) r_remain).foldl
        (loop_step U 4 (loop_round4 U rot0 rot1) ks) c := by
  induction r_remain generalizing c with
  | zero => rfl
  | succ n ih =>
    have hsucc : r_max - (n + 1) + 1 = r_max - n := by omega
    rw [List.range'_succ, List.foldl_cons, hsucc,
      ← ih _ (by omega) (loop_step4_length U rot0 rot1 ks c _ hc), rounds_functor4]
    congr 1
    obtain ⟨x, y, z, w, rfl⟩ := length_four hc
    generalize r_max - (n + 1) = r
    simp only [loop_step, loop_round4, loop_inject, loop_add_ks, wr, rd, List.set_cons_zero,
      List.set_cons_succ, List.getD_cons_zero, List.getD_cons_succ, Nat.shiftRight_eq_div_pow,
      Nat.and_one_is_mod]
    by_cases hodd : r % 2 = 0
    · have h4 : ¬ (r + 1) % 4 = 0 := by omega
      simp [hodd, h4]
    · have h1 : r % 2 = 1 := by omega
      by_cases h4 : (r + 1) % 4 = 0
      · simp [hodd, h1, h4, Nat.add_assoc, loop_add_ks, rd]
      · simp [hodd, h1, h4]

theorem threefry_add_key_eq_init (U : Uint) (k c : List Nat) :
    threefry_add_key U k c = loop_init U k c := by
  unfold threefry_add_key loop_init
  rw [List.zipWith_comm]
  congr 1
  funext a b
  rw [Nat.add_comm]

theorem threefry_add_key_length (U : Uint) (k c : List Nat) :
    (threefry_add_key U k c).length = min k.length c.length := by
  unfold threefry_add_key
  exact List.length_zipWith _ _ _

theorem threefry2_eq_loop (U : Uint) (R : Nat) (rot k c : List Nat) (hk : k.length = 2)
    (hc : c.length = 2) :
    threefry2 U R (fun pos => rd rot (pos % 8)) k c = threefry_loop2 U R rot k c := by
  unfold threefry2 threefry_loop2
  simp only
  rw [rounds_functor2_eq_foldl U rot _ R R _ (Nat.le_refl _)
    (by rw [threefry_add_key_length, hk, hc]; rfl), Nat.sub_self, ← List.range_eq_range',
    threefry_add_key_eq_init]
  rfl

theorem threefry4_eq_loop (U : Uint) (R : Nat) (rot0 rot1 k c : List Nat) (hk : k.length = 4)
    (hc : c.length = 4) :
    threefry4 U R (fun pos => rd rot0 (pos % 8)) (fun pos => rd rot1 (pos % 8)) k c =
      threefry_loop4 U R rot0 rot1 k c := by
  unfold threefry4 threefry_loop4
  simp only
  rw [rounds_functor4_eq_foldl U rot0 rot1 _ R R _ (Nat.le_refl _)
    (by rw [threefry_add_key_length, hk, hc]; rfl), Nat.sub_self, ← List.range_eq_range',
    threefry_add_key_eq_init]
  rfl

theorem injection_count (R : Nat) :
    ((List.range R).filter (fun r => decide ((r + 1) % 4 = 0))).length = R / 4 := by
  induction R with
  | zero => rfl
  | succ R ih =>
    rw [List.range_succ, List.filter_append, List.length_append, ih]
    by_cases h : (R + 1) % 4 = 0
    · simp only [List.filter_cons, h, decide_True, if_true, List.filter_nil, List.length_cons,
        List.length_nil]
      omega
    · simp only [List.filter_cons, h, decide_False, List.filter_nil, List.length_nil]
      simp only [Bool.false_eq_true, if_false, List.length_nil]
      omega

/-- C15: the unrolled mixer is the plain bounded loop. For every word type, every
round count `R`, and key and counter of `N` words (`N` = 2 or 4),
`threefry<N, Uint, R>` with a rotation table (in particular each of the four
default tables) equals the loop: extended key `ks`, initial state
`c[i] + k[i]`, rounds `r = 0 .. R-1` in increasing order, each followed, when
`(r + 1) mod 4 = 0`, by the injection of `ks` and of `g = (r + 1) / 4`. There
are `R / 4` injections and `R = 0` gives counter + key. -/
theorem C15_unrolled_equals_loop (U : Uint) (R : Nat) (k c : List Nat) :
    (k.length = 2 → c.length = 2 →
      (∀ rot, threefry2 U R (fun pos => rd rot (pos % 8)) k c = threefry_loop2 U R rot k c) ∧
      threefry2 .uint32_t R threefry_constants_2x32_rotations k c =
        threefry_loop2 .uint32_t R [13, 15, 26, 6, 17, 29, 16, 24] k c ∧
      threefry2 .uint64_t R threefry_constants_2x64_rotations k c =
        threefry_loop2 .uint64_t R [16, 42, 12, 31, 16, 32, 24, 21] k c ∧
      (∀ rotations, threefry2 U 0 rotations k c = loop_init U k c)) ∧
    (k.length = 4 → c.length = 4 →
      (∀ rot0 rot1,
        threefry4 U R (fun pos => rd rot0 (pos % 8)) (fun pos => rd rot1 (pos % 8)) k c =
          threefry_loop4 U R rot0 rot1 k c) ∧
      threefry4 .uint32_t R threefry_constants_4x32_rotations0
          threefry_constants_4x32_rotations1 k c =
        threefry_loop4 .uint32_t R [10, 11, 13, 23, 6, 17, 25, 18]
          [26, 21, 27, 5, 20, 11, 10, 20] k c ∧
      threefry4 .uint64_t R threefry_constants_4x64_rotations0
          threefry_constants_4x64_rotations1 k c =
        threefry_loop4 .uint64_t R [14, 52, 23, 5, 25, 46, 58, 32]
          [16, 57, 40, 37, 33, 12, 22, 32] k c ∧
      (∀ rotations0 rotations1, threefry4 U 0 rotations0 rotations1 k c = loop_init U k c)) ∧
    ((List.range R).filter (fun r => decide ((r + 1) % 4 = 0))).length = R / 4 ∧
    uint_ks_parity .uint32_t = 0x1BD11BDA ∧
    uint_ks_parity .uint64_t = 0x1BD11BDAA9FC1A22 := by
  refine ⟨fun hk hc => ⟨fun rot => threefry2_eq_loop U R rot k c hk hc,
      threefry2_eq_loop .uint32_t R _ k c hk hc, threefry2_eq_loop .uint64_t R _ k c hk hc,
      fun _ => threefry_add_key_eq_init U k c⟩,
    fun hk hc => ⟨fun rot0 rot1 => threefry4_eq_loop U R rot0 rot1 k c hk hc,
      threefry4_eq_loop .uint32_t R _ _ k c hk hc, threefry4_eq_loop .uint64_t R _ _ k c hk hc,
      fun _ _ => threefry_add_key_eq_init U k c⟩,
    injection_count R, rfl, rfl⟩

/-- C15 at Threefry-2x32 with 20 rounds, key (1, 2), counter (3, 4). -/
theorem C15_unrolled_equals_loop_witness :
    [1, 2].length = 2 ∧ [3, 4].length = 2 ∧
    threefry2 .uint32_t 20 threefry_constants_2x32_rotations [1, 2] [3, 4] =
      threefry_loop2 .uint32_t 20 [13, 15, 26, 6, 17, 29, 16, 24] [1, 2] [3, 4] :=
  ⟨rfl, rfl, ((C15_unrolled_equals_loop .uint32_t 20 [1, 2] [3, 4]).1 rfl rfl).2.1⟩

/-! ## The mixer is injective -/

/-- With `0 < s < W` the two shifts of `threefry_rotl` do not overlap: the low
`W - s` bits move up by `s`, the high `s` bits move down. -/
theorem threefry_rotl_eq (U : Uint) (x s : Nat) (hx : x < 2 ^ U.digits) (hs : s < U.digits) :
    threefry_rotl U x s = 2 ^ s * (x % 2 ^ (U.digits - s)) + x / 2 ^ (U.digits - s) := by
  unfold threefry_rotl
  have hW : 2 ^ U.digits = 2 ^ (U.digits - s) * 2 ^ s := by
    rw [← Nat.pow_add]; congr 1; omega
  have hhi : x / 2 ^ (U.digits - s) < 2 ^ s := by
    apply Nat.div_lt_of_lt_mul
    rw [hW] at hx
    exact hx
  rw [Nat.shiftLeft_eq, Nat.shiftRight_eq_div_pow, hW, Nat.mul_mod_mul_right,
    Nat.mul_comm (x % 2 ^ (U.digits - s)), Nat.mul_add_lt_is_or hhi]

theorem threefry_rotl_inj (U : Uint) (s : Nat) (hs : s < U.digits) (x y : Nat)
    (hx : x < 2 ^ U.digits) (hy : y < 2 ^ U.digits)
    (h : threefry_rotl U x s = threefry_rotl U y s) : x = y := by
  rw [threefry_rotl_eq U x s hx hs, threefry_rotl_eq U y s hy hs] at h
  have hW : 2 ^ U.digits = 2 ^ (U.digits - s) * 2 ^ s := by
    rw [← Nat.pow_add]; congr 1; omega
  have hp : 0 < 2 ^ s := Nat.two_pow_pos _
  have hxhi : x / 2 ^ (U.digits - s) < 2 ^ s := by
    apply Nat.div_lt_of_lt_mul; rw [hW] at hx; exact hx
  have hyhi : y / 2 ^ (U.digits - s) < 2 ^ s := by
    apply Nat.div_lt_of_lt_mul; rw [hW] at hy; exact hy
  have h1 := congrArg (fun v => v % 2 ^ s) h
  have h2 := congrArg (fun v => v / 2 ^ s) h
  simp only [Nat.mul_add_mod, Nat.mod_eq_of_lt hxhi, Nat.mod_eq_of_lt hyhi] at h1
  simp only [Nat.mul_add_div hp, Nat.div_eq_of_lt hxhi, Nat.div_eq_of_lt hyhi,
    Nat.add_zero] at h2
  rw [← Nat.div_add_mod x (2 ^ (U.digits - s)), ← Nat.div_add_mod y (2 ^ (U.digits - s)),
    h1, h2]

theorem add_mod_cancel_word (m a b k : Nat) (ha : a < m) (hb : b < m)
    (h : (a + k) % m = (b + k) % m) : a = b := by
  have h1 : a ≡ b [MOD m] := Nat.ModEq.add_right_cancel' k h
  unfold Nat.ModEq at h1
  rwa [Nat.mod_eq_of_lt ha, Nat.mod_eq_of_lt hb] at h1

theorem foldl_inj_on {α β : Type} (P : α → Prop) (g : α → β → α)
    (hP : ∀ s r, P s → P (g s r))
    (hinj : ∀ r s t, P s → P t → g s r = g t r → s = t) (L : List β) (s t : α)
    (hs : P s) (ht : P t) (h : L.foldl g s = L.foldl g t) : s = t := by
  induction L generalizing s t with
  | nil => exact h
  | cons r L ih =>
    rw [List.foldl_cons, List.foldl_cons] at h
    exact hinj r s t hs ht (ih _ _ (hP s r hs) (hP t r ht) h)

theorem words_ok_cons_iff (U : Uint) (x : Nat) (rest : List Nat) :
    words_ok U (x :: rest) ↔ x < 2 ^ U.digits ∧ words_ok U rest :=
  ⟨fun h => ⟨words_ok_head h, words_ok_tail h⟩, fun h => words_ok_cons h.1 h.2⟩

theorem words_ok_nil (U : Uint) : words_ok U [] := fun _ h => absurd h (List.not_mem_nil _)

theorem loop_round2_ok (U : Uint) (rot : List Nat) (r : Nat) (s : List Nat)
    (hl : s.length = 2) (h : words_ok U s) :
    (loop_round2 U rot r s).length = 2 ∧ words_ok U (loop_round2 U rot r s) := by
  obtain ⟨a, b, rfl⟩ := length_two hl
  simp only [words_ok_cons_iff] at h
  have hM := U.pow_pos
  refine ⟨rfl, ?_⟩
  simp only [loop_round2, words_ok_cons_iff]
  exact ⟨Nat.mod_lt _ hM,
    Nat.xor_lt_two_pow (threefry_rotl_lt U _ _ h.2.1) (Nat.mod_lt _ hM), words_ok_nil U⟩

theorem loop_round2_inj (U : Uint) (rot : List Nat) (r : Nat)
    (hrot : rd rot (r % 8) < U.digits) (s t : List Nat)
    (hs : s.length = 2 ∧ words_ok U s) (ht : t.length = 2 ∧ words_ok U t)
    (h : loop_round2 U rot r s = loop_round2 U rot r t) : s = t := by
  obtain ⟨a, b, rfl⟩ := length_two hs.1
  obtain ⟨a2, b2, rfl⟩ := length_two ht.1
  have hs2 := hs.2
  have ht2 := ht.2
  simp only [words_ok_cons_iff] at hs2 ht2
  simp only [loop_round2, List.cons.injEq, and_true] at h
  obtain ⟨h0, h1⟩ := h
  rw [h0, Nat.xor_left_inj] at h1
  have hb := threefry_rotl_inj U _ hrot b b2 hs2.2.1 ht2.2.1 h1
  subst hb
  rw [add_mod_cancel_word _ a a2 b hs2.1 ht2.1 h0]

theorem loop_inject2_ok (U : Uint) (ks : List Nat) (g : Nat) (s : List Nat)
    (hl : s.length = 2) :
    (loop_inject U 2 ks g s).length = 2 ∧ words_ok U (loop_inject U 2 ks g s) := by
  obtain ⟨a, b, rfl⟩ := length_two hl
  have hM := U.pow_pos
  refine ⟨by simp [loop_inject, loop_add_ks, wr], ?_⟩
  simp only [loop_inject, loop_add_ks, wr, rd, List.set_cons_zero, List.set_cons_succ,
    List.getD_cons_zero, List.getD_cons_succ, words_ok_cons_iff]
  exact ⟨Nat.mod_lt _ hM, Nat.mod_lt _ hM, words_ok_nil U⟩

theorem loop_inject2_inj (U : Uint) (ks : List Nat) (g : Nat) (s t : List Nat)
    (hs : s.length = 2 ∧ words_ok U s) (ht : t.length = 2 ∧ words_ok U t)
    (h : loop_inject U 2 ks g s = loop_inject U 2 ks g t) : s = t := by
  obtain ⟨a, b, rfl⟩ := length_two hs.1
  obtain ⟨a2, b2, rfl⟩ := length_two ht.1
  have hs2 := hs.2
  have ht2 := ht.2
  have hM := U.pow_pos
  simp only [words_ok_cons_iff] at hs2 ht2
  simp only [loop_inject, loop_add_ks, wr, rd, List.set_cons_zero, List.set_cons_succ,
    List.getD_cons_zero, List.getD_cons_succ, List.cons.injEq, and_true] at h
  obtain ⟨h0, h1⟩ := h
  have h1b := add_mod_cancel_word _ _ _ g (Nat.mod_lt _ hM) (Nat.mod_lt _ hM) h1
  rw [add_mod_cancel_word _ a a2 _ hs2.1 ht2.1 h0,
    add_mod_cancel_word _ b b2 _ hs2.2.1 ht2.2.1 h1b]

/-- A loop iteration is injective and keeps the shape of the state as soon as
its round and its key injection are and do. -/
theorem loop_step_inj_on (U : Uint) (N : Nat) (round : Nat → List Nat → List Nat)
    (ks : List Nat) (P : List Nat → Prop) (r : Nat)
    (hround : ∀ s, P s → P (round r s))
    (hroundinj : ∀ s t, P s → P t → round r s = round r t → s = t)
    (hinject : ∀ g s, P s → P (loop_inject U N ks g s))
    (hinjectinj : ∀ g s t, P s → P t →
      loop_inject U N ks g s = loop_inject U N ks g t → s = t) :
    (∀ s, P s → P (loop_step U N round ks s r)) ∧
    (∀ s t, P s → P t → loop_step U N round ks s r = loop_step U N round ks t r → s = t) := by
  unfold loop_step
  constructor
  · intro s hs
    simp only
    split
    · exact hinject _ _ (hround s hs)
    · exact hround s hs
  · intro s t hs ht h
    simp only at h
    split at h
    · exact hroundinj s t hs ht (hinjectinj _ _ _ (hround s hs) (hround t ht) h)
    · exact hroundinj s t hs ht h

theorem loop_init_inj (U : Uint) (k c d : List Nat) (hc : c.length = k.length)
    (hd : d.length = k.length) (hcok : words_ok U c) (hdok : words_ok U d)
    (h : loop_init U k c = loop_init U k d) : c = d := by
  induction k generalizing c d with
  | nil =>
    rw [List.length_nil, List.length_eq_zero] at hc hd
    rw [hc, hd]
  | cons x k ih =>
    match c, d, hc, hd with
    | a :: c, b :: d, hc, hd =>
      simp only [loop_init, List.zipWith_cons_cons, List.cons.injEq] at h
      simp only [words_ok_cons_iff] at hcok hdok
      simp only [List.length_cons, Nat.add_right_cancel_iff] at hc hd
      rw [add_mod_cancel_word _ a b x hcok.1 hdok.1 h.1, ih c d hc hd hcok.2 hdok.2 h.2]

theorem loop_init_shape (U : Uint) (k c : List Nat) (hc : c.length = k.length) :
    (loop_init U k c).length = k.length ∧ words_ok U (loop_init U k c) := by
  rw [← threefry_add_key_eq_init]
  exact ⟨by rw [threefry_add_key_length, hc, Nat.min_self], threefry_add_key_ok U k c⟩

theorem threefry_loop2_inj (U : Uint) (R : Nat) (rot : List Nat)
    (hrot : ∀ i, i < 8 → rd rot i < U.digits) (k c d : List Nat) (hk : k.length = 2)
    (hc : c.length = 2 ∧ words_ok U c) (hd : d.length = 2 ∧ words_ok U d)
    (h : threefry_loop2 U R rot k c = threefry_loop2 U R rot k d) : c = d := by
  unfold threefry_loop2 at h
  have hstep := fun r => loop_step_inj_on U 2 (loop_round2 U rot) (loop_ks U k)
    (fun s => s.length = 2 ∧ words_ok U s) r
    (fun s hs => loop_round2_ok U rot r s hs.1 hs.2)
    (fun s t hs ht => loop_round2_inj U rot r (hrot _ (Nat.mod_lt _ (by decide))) s t hs ht)
    (fun g s hs => loop_inject2_ok U _ g s hs.1)
    (fun g s t hs ht => loop_inject2_inj U _ g s t hs ht)
  have hi := foldl_inj_on (fun s => s.length = 2 ∧ words_ok U s) _
    (fun s r hs => (hstep r).1 s hs) (fun r s t hs ht => (hstep r).2 s t hs ht)
    (List.range R) _ _
    (by rw [← hk]; exact loop_init_shape U k c (by rw [hc.1, hk]))
    (by rw [← hk]; exact loop_init_shape U k d (by rw [hd.1, hk])) h
  exact loop_init_inj U k c d (by rw [hc.1, hk]) (by rw [hd.1, hk]) hc.2 hd.2 hi

theorem loop_round4_ok (U : Uint) (rot0 rot1 : List Nat) (r : Nat) (s : List Nat)
    (hl : s.length = 4) (h : words_ok U s) :
    (loop_round4 U rot0 rot1 r s).length = 4 ∧ words_ok U (loop_round4 U rot0 rot1 r s) := by
  obtain ⟨a, b, c, d, rfl⟩ := length_four hl
  simp only [words_ok_cons_iff] at h
  have hM := U.pow_pos
  simp only [loop_round4]
  split
  · refine ⟨rfl, ?_⟩
    simp only [words_ok_cons_iff]
    exact ⟨Nat.mod_lt _ hM,
      Nat.xor_lt_two_pow (threefry_rotl_lt U _ _ h.2.1) (Nat.mod_lt _ hM),
      Nat.mod_lt _ hM,
      Nat.xor_lt_two_pow (threefry_rotl_lt U _ _ h.2.2.2.1) (Nat.mod_lt _ hM), words_ok_nil U⟩
  · refine ⟨rfl, ?_⟩
    simp only [words_ok_cons_iff]
    exact ⟨Nat.mod_lt _ hM,
      Nat.xor_lt_two_pow (threefry_rotl_lt U _ _ h.2.1) (Nat.mod_lt _ hM),
      Nat.mod_lt _ hM,
      Nat.xor_lt_two_pow (threefry_rotl_lt U _ _ h.2.2.2.1) (Nat.mod_lt _ hM), words_ok_nil U⟩

theorem loop_round4_inj (U : Uint) (rot0 rot1 : List Nat) (r : Nat)
    (hrot0 : rd rot0 (r % 8) < U.digits) (hrot1 : rd rot1 (r % 8) < U.digits)
    (s t : List Nat) (hs : s.length = 4 ∧ words_ok U s) (ht : t.length = 4 ∧ words_ok U t)
    (h : loop_round4 U rot0 rot1 r s = loop_round4 U rot0 rot1 r t) : s = t := by
  obtain ⟨a, b, c, d, rfl⟩ := length_four hs.1
  obtain ⟨a2, b2, c2, d2, rfl⟩ := length_four ht.1
  have hs2 := hs.2
  have ht2 := ht.2
  simp only [words_ok_cons_iff] at hs2 ht2
  simp only [loop_round4] at h
  split at h
  · simp only [List.cons.injEq, and_true] at h
    obtain ⟨h0, h1, h2, h3⟩ := h
    rw [h0, Nat.xor_left_inj] at h1
    rw [h2, Nat.xor_left_inj] at h3
    have hb := threefry_rotl_inj U _ hrot0 b b2 hs2.2.1 ht2.2.1 h1
    have hd := threefry_rotl_inj U _ hrot1 d d2 hs2.2.2.2.1 ht2.2.2.2.1 h3
    subst hb hd
    rw [add_mod_cancel_word _ a a2 b hs2.1 ht2.1 h0,
      add_mod_cancel_word _ c c2 d hs2.2.2.1 ht2.2.2.1 h2]
  · simp only [List.cons.injEq, and_true] at h
    obtain ⟨h0, h1, h2, h3⟩ := h
    rw [h2, Nat.xor_left_inj] at h1
    rw [h0, Nat.xor_left_inj] at h3
    have hb := threefry_rotl_inj U _ hrot1 b b2 hs2.2.1 ht2.2.1 h1
    have hd := threefry_rotl_inj U _ hrot0 d d2 hs2.2.2.2.1 ht2.2.2.2.1 h3
    subst hb hd
    rw [add_mod_cancel_word _ a a2 d hs2.1 ht2.1 h0,
      add_mod_cancel_word _ c c2 b hs2.2.2.1 ht2.2.2.1 h2]

theorem loop_inject4_ok (U : Uint) (ks : List Nat) (g : Nat) (s : List Nat)
    (hl : s.length = 4) :
    (loop_inject U 4 ks g s).length = 4 ∧ words_ok U (loop_inject U 4 ks g s) := by
  obtain ⟨a, b, c, d, rfl⟩ := length_four hl
  have hM := U.pow_pos
  refine ⟨by simp [loop_inject, loop_add_ks, wr], ?_⟩
  simp only [loop_inject, loop_add_ks, wr, rd, List.set_cons_zero, List.set_cons_succ,
    List.getD_cons_zero, List.getD_cons_succ, words_ok_cons_iff]
  exact ⟨Nat.mod_lt _ hM, Nat.mod_lt _ hM, Nat.mod_lt _ hM, Nat.mod_lt _ hM, words_ok_nil U⟩

theorem loop_inject4_inj (U : Uint) (ks : List Nat) (g : Nat) (s t : List Nat)
    (hs : s.length = 4 ∧ words_ok U s) (ht : t.length = 4 ∧ words_ok U t)
    (h : loop_inject U 4 ks g s = loop_inject U 4 ks g t) : s = t := by
  obtain ⟨a, b, c, d, rfl⟩ := length_four hs.1
  obtain ⟨a2, b2, c2, d2, rfl⟩ := length_four ht.1
  have hs2 := hs.2
  have ht2 := ht.2
  have hM := U.pow_pos
  simp only [words_ok_cons_iff] at hs2 ht2
  simp only [loop_inject, loop_add_ks, wr, rd, List.set_cons_zero, List.set_cons_succ,
    List.getD_cons_zero, List.getD_cons_succ, List.cons.injEq, and_true] at h
  obtain ⟨h0, h1, h2, h3⟩ := h
  have h3b := add_mod_cancel_word _ _ _ g (Nat.mod_lt _ hM) (Nat.mod_lt _ hM) h3
  rw [add_mod_cancel_word _ a a2 _ hs2.1 ht2.1 h0,
    add_mod_cancel_word _ b b2 _ hs2.2.1 ht2.2.1 h1,
    add_mod_cancel_word _ c c2 _ hs2.2.2.1 ht2.2.2.1 h2,
    add_mod_cancel_word _ d d2 _ hs2.2.2.2.1 ht2.2.2.2.1 h3b]

theorem threefry_loop4_inj (U : Uint) (R : Nat) (rot0 rot1 : List Nat)
    (hrot0 : ∀ i, i < 8 → rd rot0 i < U.digits) (hrot1 : ∀ i, i < 8 → rd rot1 i < U.digits)
    (k c d : List Nat) (hk : k.length = 4)
    (hc : c.length = 4 ∧ words_ok U c) (hd : d.length = 4 ∧ words_ok U d)
    (h : threefry_loop4 U R rot0 rot1 k c = threefry_loop4 U R rot0 rot1 k d) : c = d := by
  unfold threefry_loop4 at h
  have hstep := fun r => loop_step_inj_on U 4 (loop_round4 U rot0 rot1) (loop_ks U k)
    (fun s => s.length = 4 ∧ words_ok U s) r
    (fun s hs => loop_round4_ok U rot0 rot1 r s hs.1 hs.2)
    (fun s t hs ht => loop_round4_inj U rot0 rot1 r (hrot0 _ (Nat.mod_lt _ (by decide)))
      (hrot1 _ (Nat.mod_lt _ (by decide))) s t hs ht)
    (fun g s hs => loop_inject4_ok U _ g s hs.1)
    (fun g s t hs ht => loop_inject4_inj U _ g s t hs ht)
  have hi := foldl_inj_on (fun s => s.length = 4 ∧ words_ok U s) _
    (fun s r hs => (hstep r).1 s hs) (fun r s t hs ht => (hstep r).2 s t hs ht)
    (List.range R) _ _
    (by rw [← hk]; exact loop_init_shape U k c (by rw [hc.1, hk]))
    (by rw [← hk]; exact loop_init_shape U k d (by rw [hd.1, hk])) h
  exact loop_init_inj U k c d (by rw [hc.1, hk]) (by rw [hd.1, hk]) hc.2 hd.2 hi

theorem threefry2_default_eq_loop (U : Uint) (R : Nat) (k c : List Nat)
    (hk : k.length = 2) (hc : c.length = 2) :
    threefry2_default U R k c = threefry_loop2 U R (rotation_table2 U) k c := by
  cases U
  · exact threefry2_eq_loop .uint32_t R [13, 15, 26, 6, 17, 29, 16, 24] k c hk hc
  · exact threefry2_eq_loop .uint64_t R [16, 42, 12, 31, 16, 32, 24, 21] k c hk hc

theorem threefry4_default_eq_loop (U : Uint) (R : Nat) (k c : List Nat)
    (hk : k.length = 4) (hc : c.length = 4) :
    threefry4_default U R k c =
      threefry_loop4 U R (rotation_table4_0 U) (rotation_table4_1 U) k c := by
  cases U
  · exact threefry4_eq_loop .uint32_t R [10, 11, 13, 23, 6, 17, 25, 18]
      [26, 21, 27, 5, 20, 11, 10, 20] k c hk hc
  · exact threefry4_eq_loop .uint64_t R [14, 52, 23, 5, 25, 46, 58, 32]
      [16, 57, 40, 37, 33, 12, 22, 32] k c hk hc

theorem rotation_tables_lt (U : Uint) (i : Nat) (hi : i < 8) :
    (0 < rd (rotation_table2 U) i ∧ rd (rotation_table2 U) i < U.digits) ∧
    (0 < rd (rotation_table4_0 U) i ∧ rd (rotation_table4_0 U) i < U.digits) ∧
    (0 < rd (rotation_table4_1 U) i ∧ rd (rotation_table4_1 U) i < U.digits) := by
  cases U <;> revert i <;> decide

theorem foldl_preserves {α β : Type} (P : α → Prop) (g : α → β → α)
    (hP : ∀ s r, P s → P (g s r)) (L : List β) (s : α) (hs : P s) : P (L.foldl g s) := by
  induction L generalizing s with
  | nil => exact hs
  | cons r L ih => exact ih _ (hP s r hs)

theorem threefry_loop2_shape (U : Uint) (R : Nat) (rot k c : List Nat) (hk : k.length = 2)
    (hc : c.length = 2) : threefry_loop2 U R rot k c ∈ word_arrays U 2 := by
  unfold threefry_loop2
  apply foldl_preserves (fun s => s.length = 2 ∧ words_ok U s)
  · intro s r hs
    unfold loop_step
    simp only
    split
    · exact loop_inject2_ok U _ _ _ (loop_round2_ok U rot r s hs.1 hs.2).1
    · exact loop_round2_ok U rot r s hs.1 hs.2
  · rw [← hk]; exact loop_init_shape U k c (by rw [hc, hk])

theorem threefry_loop4_shape (U : Uint) (R : Nat) (rot0 rot1 k c : List Nat)
    (hk : k.length = 4) (hc : c.length = 4) :
    threefry_loop4 U R rot0 rot1 k c ∈ word_arrays U 4 := by
  unfold threefry_loop4
  apply foldl_preserves (fun s => s.length = 4 ∧ words_ok U s)
  · intro s r hs
    unfold loop_step
    simp only
    split
    · exact loop_inject4_ok U _ _ _ (loop_round4_ok U rot0 rot1 r s hs.1 hs.2).1
    · exact loop_round4_ok U rot0 rot1 r s hs.1 hs.2
  · rw [← hk]; exact loop_init_shape U k c (by rw [hc, hk])

theorem word_arrays_finite (U : Uint) (n : Nat) : (word_arrays U n).Finite := by
  apply Set.Finite.subset ((Set.finite_Iio (2 ^ (U.digits * n))).image (ctr_enc U n))
  rintro c ⟨hl, hok⟩
  refine ⟨ctr_val U c, ?_, ?_⟩
  · rw [← hl]; exact ctr_val_lt U c hok
  · rw [← hl]; exact ctr_enc_val U c hok

theorem threefry2_default_mapsTo (U : Uint) (R : Nat) (k : List Nat) (hk : k.length = 2) :
    Set.MapsTo (threefry2_default U R k) (word_arrays U 2) (word_arrays U 2) := by
  intro c hc
  rw [threefry2_default_eq_loop U R k c hk hc.1]
  exact threefry_loop2_shape U R _ k c hk hc.1

theorem threefry4_default_mapsTo (U : Uint) (R : Nat) (k : List Nat) (hk : k.length = 4) :
    Set.MapsTo (threefry4_default U R k) (word_arrays U 4) (word_arrays U 4) := by
  intro c hc
  rw [threefry4_default_eq_loop U R k c hk hc.1]
  exact threefry_loop4_shape U R _ _ k c hk hc.1

theorem threefry2_default_injOn (U : Uint) (R : Nat) (k : List Nat) (hk : k.length = 2) :
    Set.InjOn (threefry2_default U R k) (word_arrays U 2) := by
  intro c hc d hd h
  rw [threefry2_default_eq_loop U R k c hk hc.1, threefry2_default_eq_loop U R k d hk hd.1] at h
  exact threefry_loop2_inj U R _ (fun i hi => (rotation_tables_lt U i hi).1.2) k c d hk hc hd h

theorem threefry4_default_injOn (U : Uint) (R : Nat) (k : List Nat) (hk : k.length = 4) :
    Set.InjOn (threefry4_default U R k) (word_arrays U 4) := by
  intro c hc d hd h
  rw [threefry4_default_eq_loop U R k c hk hc.1, threefry4_default_eq_loop U R k d hk hd.1] at h
  exact threefry_loop4_inj U R _ _ (fun i hi => (rotation_tables_lt U i hi).2.1.2)
    (fun i hi => (rotation_tables_lt U i hi).2.2.2) k c d hk hc hd h

/-- C16: for every fixed key the mixer is a permutation of the counter space.
For `N` = 2 and 4, both word types, every round count `R` (20 for the four
typedefs) and every key of `N` words, `c ↦ threefry<N, Uint, R>(k)(c)` maps
`N`-word arrays to `N`-word arrays injectively, hence bijectively: two distinct
counters never give the same block. -/
theorem C16_mixer_permutation (U : Uint) (R : Nat) (k : List Nat) :
    (k.length = 2 →
      Set.InjOn (threefry2_default U R k) (word_arrays U 2) ∧
      Set.BijOn (threefry2_default U R k) (word_arrays U 2) (word_arrays U 2) ∧
      (∀ c d, c.length = 2 → words_ok U c → d.length = 2 → words_ok U d → c ≠ d →
        threefry2_default U R k c ≠ threefry2_default U R k d)) ∧
    (k.length = 4 →
      Set.InjOn (threefry4_default U R k) (word_arrays U 4) ∧
      Set.BijOn (threefry4_default U R k) (word_arrays U 4) (word_arrays U 4) ∧
      (∀ c d, c.length = 4 → words_ok U c → d.length = 4 → words_ok U d → c ≠ d →
        threefry4_default U R k c ≠ threefry4_default U R k d)) ∧
    threefry2x32 = threefry2_default .uint32_t 20 ∧
    threefry2x64 = threefry2_default .uint64_t 20 ∧
    threefry4x32 = threefry4_default .uint32_t 20 ∧
    threefry4x64 = threefry4_default .uint64_t 20 := by
  refine ⟨fun hk => ?_, fun hk => ?_, rfl, rfl, rfl, rfl⟩
  · have hinj := threefry2_default_injOn U R k hk
    refine ⟨hinj, ((word_arrays_finite U 2).injOn_iff_bijOn_of_mapsTo
      (threefry2_default_mapsTo U R k hk)).1 hinj, ?_⟩
    intro c d hc hcok hd hdok hne h
    exact hne (hinj ⟨hc, hcok⟩ ⟨hd, hdok⟩ h)
  · have hinj := threefry4_default_injOn U R k hk
    refine ⟨hinj, ((word_arrays_finite U 4).injOn_iff_bijOn_of_mapsTo
      (threefry4_default_mapsTo U R k hk)).1 hinj, ?_⟩
    intro c d hc hcok hd hdok hne h
    exact hne (hinj ⟨hc, hcok⟩ ⟨hd, hdok⟩ h)

/-- C16 at Threefry-4x64-20 with the key (1, 2, 3, 4). -/
theorem C16_mixer_permutation_witness :
    [1, 2, 3, 4].length = 4 ∧
    Set.InjOn (threefry4_default .uint64_t 20 [1, 2, 3, 4]) (word_arrays .uint64_t 4) :=
  ⟨rfl, ((C16_mixer_permutation .uint64_t 20 [1, 2, 3, 4]).2.1 rfl).1⟩

/-! ## Derivation and the buffer cursor -/

theorem std_rotate_shape (U : Uint) (n : Nat) (a : List Nat) (m : Nat)
    (h : a ∈ word_arrays U n) : std_rotate a m ∈ word_arrays U n := by
  obtain ⟨hl, hok⟩ := h
  constructor
  · unfold std_rotate
    rw [List.length_append, List.length_drop, List.length_take]
    omega
  · intro x hx
    unfold std_rotate at hx
    rcases List.mem_append.1 hx with hx | hx
    · exact hok x (List.mem_of_mem_drop hx)
    · exact hok x (List.mem_of_mem_take hx)

theorem derivate_key_of_buffered (G : CBRNG) (e : counter_engine) (h : e.elem ≠ 0)
    (key v_uninit : List Nat) :
    (e.derivate G key v_uninit).b = G.mix key (std_rotate e.v e.elem) := by
  simp only [counter_engine.derivate, counter_engine.seed_key, counter_engine.from_key,
    next_buffered G e h]

theorem engine4_mix (G : CBRNG) (hG : G = engine4x32 ∨ G = engine4x64) :
    G.N = 4 ∧ G.mix = threefry4_default G.uint_type 20 := by
  rcases hG with rfl | rfl
  · refine ⟨by simp only [engine4x32], ?_⟩
    simp only [engine4x32, threefry4x32, threefry4_default]
  · refine ⟨by simp only [engine4x64], ?_⟩
    simp only [engine4x64, threefry4x64, threefry4_default]

/-- Two different rotations by 1, 2 or 3 of a four-word block agree only on a
block of period two. -/
theorem std_rotate_eq_four (a : List Nat) (hl : a.length = 4) (m n : Nat)
    (hm : 1 ≤ m ∧ m ≤ 3) (hn : 1 ≤ n ∧ n ≤ 3) (hne : m ≠ n)
    (h : std_rotate a m = std_rotate a n) : rd a 0 = rd a 2 ∧ rd a 1 = rd a 3 := by
  obtain ⟨x, y, z, w, rfl⟩ := length_four hl
  obtain ⟨hm1, hm3⟩ := hm
  obtain ⟨hn1, hn3⟩ := hn
  simp only [rd, List.getD_cons_zero, List.getD_cons_succ]
  interval_cases m <;> interval_cases n <;>
    simp only [std_rotate, List.drop_succ_cons, List.drop_zero, List.take_succ_cons,
      List.take_zero, List.cons_append, List.nil_append, List.cons.injEq, and_true,
      ne_eq, not_true_eq_false] at h hne <;>
    (obtain ⟨h1, h2, h3, h4⟩ := h; constructor <;> omega)

set_option maxRecDepth 100000 in
/-- C18, as stated, fails: under the all-zero key the counters below are mixed
to the all-zero block (by `threefry4x32`, resp. `threefry4x64`), every rotation
of which is the same block, so the engines with `elem = 1` and `elem = 2`
derive the same key. -/
theorem C18_cursor_divergence_counterexample :
    (engine4x32.mix [0, 0, 0, 0] [0xdc306845, 0x01f2f0c4, 0x20d287ea, 0x4e9caf2c]
        = [0, 0, 0, 0] ∧
      (counter_engine.derivate engine4x32
          { b := [0, 0, 0, 0], c := [0xdc306845, 0x01f2f0c4, 0x20d287ea, 0x4e9caf2c],
            elem := 1, v := [0, 0, 0, 0] } [1, 2, 3, 4] []).b =
        (counter_engine.derivate engine4x32
          { b := [0, 0, 0, 0], c := [0xdc306845, 0x01f2f0c4, 0x20d287ea, 0x4e9caf2c],
            elem := 2, v := [0, 0, 0, 0] } [1, 2, 3, 4] []).b) ∧
    (engine4x64.mix [0, 0, 0, 0]
        [0x544b4fbc1dbe2bee, 0xfb1186b6f7ac1f08, 0xc55400a779661a84, 0x21634f3dc7ff511a]
        = [0, 0, 0, 0] ∧
      (counter_engine.derivate engine4x64
          { b := [0, 0, 0, 0],
            c := [0x544b4fbc1dbe2bee, 0xfb1186b6f7ac1f08, 0xc55400a779661a84,
              0x21634f3dc7ff511a],
            elem := 1, v := [0, 0, 0, 0] } [1, 2, 3, 4] []).b =
        (counter_engine.derivate engine4x64
          { b := [0, 0, 0, 0],
            c := [0x544b4fbc1dbe2bee, 0xfb1186b6f7ac1f08, 0xc55400a779661a84,
              0x21634f3dc7ff511a],
            elem := 2, v := [0, 0, 0, 0] } [1, 2, 3, 4] []).b) := by
  decide

/-- C18, amended: for the `N = 4` engines, two states that share the key, the
counter and the buffer `v = mix_k(c)` and have different cursors in `1..3` derive
the same key under a new key exactly when the two rotations of `v` coincide; in
particular they derive different keys whenever `v` is not of period two, that
is unless `v[0] = v[2]` and `v[1] = v[3]`. -/
theorem C18_cursor_divergence (G : CBRNG) (hG : G = engine4x32 ∨ G = engine4x64)
    (e1 e2 : counter_engine) (key v1 v2 : List Nat)
    (hb : e1.b = e2.b) (hc : e1.c = e2.c)
    (hv1 : e1.v = G.mix e1.b e1.c) (hv2 : e2.v = G.mix e2.b e2.c)
    (hk : e1.b.length = 4) (hcl : e1.c.length = 4) (hkey : key.length = 4)
    (h1 : 1 ≤ e1.elem ∧ e1.elem ≤ 3) (h2 : 1 ≤ e2.elem ∧ e2.elem ≤ 3)
    (hne : e1.elem ≠ e2.elem) :
    ((e1.derivate G key v1).b = (e2.derivate G key v2).b ↔
      std_rotate e1.v e1.elem = std_rotate e1.v e2.elem) ∧
    (¬ (rd e1.v 0 = rd e1.v 2 ∧ rd e1.v 1 = rd e1.v 3) →
      (e1.derivate G key v1).b ≠ (e2.derivate G key v2).b) := by
  obtain ⟨_, hmix⟩ := engine4_mix G hG
  have hv : e2.v = e1.v := by rw [hv1, hv2, hb, hc]
  have hshape : e1.v ∈ word_arrays G.uint_type 4 := by
    rw [hv1, hmix, threefry4_default_eq_loop _ _ _ _ hk hcl]
    exact threefry_loop4_shape _ _ _ _ _ _ hk hcl
  have hiff : (e1.derivate G key v1).b = (e2.derivate G key v2).b ↔
      std_rotate e1.v e1.elem = std_rotate e1.v e2.elem := by
    rw [derivate_key_of_buffered G e1 (by omega), derivate_key_of_buffered G e2 (by omega),
      hv, hmix]
    constructor
    · intro h
      exact threefry4_default_injOn G.uint_type 20 key hkey
        (std_rotate_shape _ _ _ _ hshape) (std_rotate_shape _ _ _ _ hshape) h
    · intro h
      rw [h]
  refine ⟨hiff, fun hper heq => hper ?_⟩
  exact std_rotate_eq_four e1.v hshape.1 _ _ h1 h2 hne (hiff.1 heq)

/-- C18 (amended) at `counter_engine<threefry4x32>` after one and after two calls
from the default-constructed engine. -/
theorem C18_cursor_divergence_witness :
    (counter_engine.steps engine4x32 1 (counter_engine.from_default engine4x32 [])).elem ≠
      (counter_engine.steps engine4x32 2 (counter_engine.from_default engine4x32 [])).elem ∧
    ((counter_engine.derivate engine4x32
        (counter_engine.steps engine4x32 1 (counter_engine.from_default engine4x32 []))
        [1, 2, 3, 4] []).b =
      (counter_engine.derivate engine4x32
        (counter_engine.steps engine4x32 2 (counter_engine.from_default engine4x32 []))
        [1, 2, 3, 4] []).b ↔
      std_rotate
        (counter_engine.steps engine4x32 1 (counter_engine.from_default engine4x32 [])).v
        (counter_engine.steps engine4x32 1 (counter_engine.from_default engine4x32 [])).elem =
      std_rotate
        (counter_engine.steps engine4x32 1 (counter_engine.from_default engine4x32 [])).v
        (counter_engine.steps engine4x32 2 (counter_engine.from_default engine4x32 [])).elem) :=
  ⟨by decide,
    (C18_cursor_divergence engine4x32 (Or.inl rfl)
      (counter_engine.steps engine4x32 1 (counter_engine.from_default engine4x32 []))
      (counter_engine.steps engine4x32 2 (counter_engine.from_default engine4x32 []))
      [1, 2, 3, 4] [] [] rfl rfl rfl rfl rfl rfl rfl (by decide) (by decide) (by decide)).1⟩

/-! ## The work of a skip -/

theorem discard_drop_iters_eq (elem skip : Nat) :
    discard_drop_iters elem skip = min skip elem := by
  induction elem generalizing skip with
  | zero => simp [discard_drop_iters]
  | succ elem ih =>
    cases skip with
    | zero => simp [discard_drop_iters]
    | succ skip => simp only [discard_drop_iters, ih]; omega

theorem incr_array_by_depth_le (U : Uint) (c : List Nat) (inc_val : Nat) :
    incr_array_by_depth U c inc_val ≤ c.length := by
  induction c generalizing inc_val with
  | nil => simp [incr_array_by_depth]
  | cons x rest ih =>
    unfold incr_array_by_depth
    simp only [List.length_cons]
    split
    · omega
    · split
      · exact Nat.succ_le_succ (ih _)
      · exact Nat.succ_le_succ (ih _)

theorem steps_mix_calls_drain (G : CBRNG) (j : Nat) (e : counter_engine) (h : j ≤ e.elem) :
    counter_engine.steps_mix_calls G j e = 0 := by
  induction j generalizing e with
  | zero => rfl
  | succ j ih =>
    have hne : e.elem ≠ 0 := by omega
    simp only [counter_engine.steps_mix_calls, counter_engine.next_mix_calls, hne, if_false,
      Nat.zero_add]
    apply ih
    rw [next_buffered G e hne]
    simp only
    omega

theorem steps_mix_calls_block (G : CBRNG) (j : Nat) (e : counter_engine) (h0 : e.elem = 0)
    (hj : j ≤ G.N) : counter_engine.steps_mix_calls G j e ≤ 1 := by
  cases j with
  | zero => simp [counter_engine.steps_mix_calls]
  | succ j =>
    simp only [counter_engine.steps_mix_calls, counter_engine.next_mix_calls, h0, if_true]
    rw [steps_mix_calls_drain G j _ (by rw [next_refill G e h0]; simp only; omega)]

/-- C19: a skip does bounded work whatever `n` is. For every engine state with
`elem ≤ N` and every `n`, `discard(n)` iterates its first loop `min(n, elem)`
times, recurses in `incr_array` to a depth of at most `N`, calls `operator()`
exactly `(n - min(n, elem)) mod N` times, fewer than `N`, evaluates the mixer
at most once, and leaves the state of `discard`. All of these are total
functions of the state and of `n`. -/
theorem C19_skip_bounded_work (G : CBRNG) (hN : 0 < G.N) (e : counter_engine)
    (he : e.elem ≤ G.N) (hc : e.c.length = G.N) (n : Nat) :
    (e.discard_traced G n).state = e.discard G n ∧
    (e.discard_traced G n).next_calls = (n - min n e.elem) % G.N ∧
    (e.discard_traced G n).next_calls < G.N ∧
    (e.discard_traced G n).mix_calls ≤ 1 ∧
    ((e.discard_traced G n).loop_iters = min n e.elem ∧
      (e.discard_traced G n).loop_iters ≤ G.N) ∧
    (e.discard_traced G n).incr_depth ≤ G.N := by
  simp only [counter_engine.discard_traced, counter_engine.discard, discard_drop_eq,
    discard_drop_iters_eq]
  have hsub : n - min n e.elem = n - e.elem := by omega
  refine ⟨trivial, by rw [hsub], Nat.mod_lt _ hN, ?_, ⟨trivial, by omega⟩,
    by rw [← hc]; exact incr_array_by_depth_le _ _ _⟩
  by_cases hle : n ≤ e.elem
  · have h0 : n - e.elem = 0 := by omega
    rw [h0, Nat.zero_mod]
    simp [counter_engine.steps_mix_calls]
  · exact steps_mix_calls_block G _ _ (by simp only; omega) (Nat.le_of_lt (Nat.mod_lt _ hN))

/-- C19 at `counter_engine<threefry4x32>` after one call, skipping 2^64 - 1. -/
theorem C19_skip_bounded_work_witness :
    0 < engine4x32.N ∧
    (counter_engine.steps engine4x32 1 (counter_engine.from_default engine4x32 [])).elem ≤
      engine4x32.N ∧
    (counter_engine.steps engine4x32 1 (counter_engine.from_default engine4x32 [])).c.length =
      engine4x32.N ∧
    ((counter_engine.steps engine4x32 1
      (counter_engine.from_default engine4x32 [])).discard_traced engine4x32
        (2 ^ 64 - 1)).mix_calls ≤ 1 :=
  ⟨by decide, by decide, by decide,
    (C19_skip_bounded_work engine4x32 (by decide) _ (by decide) (by decide)
      (2 ^ 64 - 1)).2.2.2.1⟩

/-! ## Blocks against scalars, composed skips -/

theorem discard_zero (G : CBRNG) (e : counter_engine) : e.discard G 0 = e := by
  unfold counter_engine.discard
  simp only [discard_drop_eq, Nat.sub_zero, Nat.zero_sub, Nat.zero_div, Nat.zero_mod,
    incr_array_by_zero, counter_engine.steps]

theorem discard_elem (G : CBRNG) (e : counter_engine) :
    e.discard G e.elem = { e with elem := 0 } := by
  unfold counter_engine.discard
  simp only [discard_drop_eq, Nat.sub_self, Nat.zero_div, Nat.zero_mod, incr_array_by_zero,
    counter_engine.steps]

theorem map_range_rev (B : List Nat) :
    (List.range B.length).map (fun i => rd B (B.length - 1 - i)) = B.reverse := by
  apply List.ext_getElem
  · simp
  · intro i h1 h2
    simp only [List.length_map, List.length_range] at h1
    rw [List.getElem_map, List.getElem_range, List.getElem_reverse]
    unfold rd
    rw [List.getD_eq_getElem _ _ (by omega)]

theorem obs_eq_symm {e1 e2 : counter_engine} (h : obs_eq e1 e2) : obs_eq e2 e1 := by
  obtain ⟨hc, he, hb, hv⟩ := h
  exact ⟨hc.symm, he.symm, hb.symm, fun h0 => (hv (he ▸ h0)).symm⟩

theorem obs_eq_trans {e1 e2 e3 : counter_engine} (h : obs_eq e1 e2) (h2 : obs_eq e2 e3) :
    obs_eq e1 e3 := by
  obtain ⟨hc, he, hb, hv⟩ := h
  obtain ⟨hc2, he2, hb2, hv2⟩ := h2
  exact ⟨hc.trans hc2, he.trans he2, hb.trans hb2,
    fun h0 => (hv h0).trans (hv2 (he ▸ h0))⟩

theorem discard_obs_eq_steps (G : CBRNG) (hN : 0 < G.N) (e : counter_engine)
    (hc : ctr_ok G e.c) (n : Nat) (hn : n < 2 ^ 64) :
    obs_eq (e.discard G n) (counter_engine.steps G n e) := by
  obtain ⟨h1, h2, h3, h4⟩ := discard_vs_steps G hN e hc n hn
  exact ⟨h1, h2, h3, fun h0 => h4 (Or.inl (h2 ▸ h0))⟩

theorem steps_obs_eq (G : CBRNG) (m : Nat) (e1 e2 : counter_engine) (h : obs_eq e1 e2) :
    obs_eq (counter_engine.steps G m e1) (counter_engine.steps G m e2) := by
  rw [steps_eq_run, steps_eq_run]
  exact (run_obs_eq G m e1 e2 h).2

theorem discard_discard_obs_eq (G : CBRNG) (hN : 0 < G.N) (e : counter_engine)
    (hc : ctr_ok G e.c) (a b : Nat) (hab : a + b < 2 ^ 64) :
    obs_eq ((e.discard G a).discard G b) (e.discard G (a + b)) := by
  have ha : a < 2 ^ 64 := by omega
  have hb : b < 2 ^ 64 := by omega
  have h1 := discard_obs_eq_steps G hN (e.discard G a) (discard_ctr_ok G e a ha hc) b hb
  have h2 := steps_obs_eq G b _ _ (discard_obs_eq_steps G hN e hc a ha)
  rw [← steps_add] at h2
  exact obs_eq_trans (obs_eq_trans h1 h2) (obs_eq_symm (discard_obs_eq_steps G hN e hc _ hab))

/-- C21: block and scalar interfaces agree. For every reachable engine state,
`generate_block` returns a block `B` and leaves a state that is `==` to the one
reached by `discard(elem)` followed by `N` calls of `operator()`; those `N`
calls return `B[N-1], ..., B[0]`, which is the reverse of `B` when the mixer
returns `N` words. -/
theorem C21_block_scalar_agree (G : CBRNG) (hN : 0 < G.N) (e : counter_engine)
    (hr : Reachable G e) :
    (e.generate_block G).2.eq
      (counter_engine.run G G.N (e.discard G e.elem)).2 = true ∧
    (counter_engine.run G G.N (e.discard G e.elem)).1 =
      (List.range G.N).map (fun i => rd (e.generate_block G).1 (G.N - 1 - i)) ∧
    ((e.generate_block G).1.length = G.N →
      (counter_engine.run G G.N (e.discard G e.elem)).1 = (e.generate_block G).1.reverse) ∧
    e.elem < G.N := by
  have hrun := run_block G { e with elem := 0 } rfl G.N hN (Nat.le_refl _)
  rw [discard_elem, hrun]
  refine ⟨by simp [counter_engine.eq, counter_engine.generate_block], rfl, ?_,
    reachable_elem_lt G hN e hr⟩
  intro hl
  simp only [counter_engine.generate_block] at hl ⊢
  rw [← hl, map_range_rev]

/-- C21 at `counter_engine<threefry2x64>` after three calls (`elem = 1`). -/
theorem C21_block_scalar_agree_witness :
    0 < engine2x64.N ∧
    Reachable engine2x64
      (counter_engine.steps engine2x64 3 (counter_engine.from_default engine2x64 [])) ∧
    ((counter_engine.steps engine2x64 3
        (counter_engine.from_default engine2x64 [])).generate_block engine2x64).2.eq
      (counter_engine.run engine2x64 engine2x64.N
        ((counter_engine.steps engine2x64 3
          (counter_engine.from_default engine2x64 [])).discard engine2x64
          (counter_engine.steps engine2x64 3
            (counter_engine.from_default engine2x64 [])).elem)).2 = true :=
  ⟨by decide, reachable_steps _ _ _ (Reachable.from_default _),
    (C21_block_scalar_agree engine2x64 (by decide) _
      (reachable_steps _ _ _ (Reachable.from_default _))).1⟩

/-- C22: the generic fallback `random_engine_derivate(engine, key)` returns a
copy of the engine advanced by one call of its `operator()`, and the result
does not depend on the key. -/
theorem C22_generic_derivate (Engine : Type) (call : Engine → Nat × Engine)
    (engine : Engine) (k1 k2 : Nat) :
    random_engine_derivate_generic call engine k1 = (call engine).2 ∧
    random_engine_derivate_generic call engine k1 =
      random_engine_derivate_generic call engine k2 ∧
    (∀ (G : CBRNG) (e : counter_engine),
      random_engine_derivate_generic (counter_engine.next G) e k1 =
        counter_engine.steps G 1 e) :=
  ⟨rfl, rfl, fun _ _ => rfl⟩

/-- C23: skips compose additively. For every reachable engine and `a + b < 2^64`,
`discard(a)` then `discard(b)` leaves an engine `==` to the one after
`discard(a + b)`, both then return the same words from any number of calls of
`operator()`, and `discard(0)` changes nothing. -/
theorem C23_skips_compose (G : CBRNG) (hN : 0 < G.N) (e : counter_engine)
    (hr : Reachable G e) (a b : Nat) (hab : a + b < 2 ^ 64) :
    ((e.discard G a).discard G b).eq (e.discard G (a + b)) = true ∧
    (∀ m, (counter_engine.run G m ((e.discard G a).discard G b)).1 =
      (counter_engine.run G m (e.discard G (a + b))).1) ∧
    e.discard G 0 = e := by
  have h := discard_discard_obs_eq G hN e (reachable_ctr_ok G e hr) a b hab
  exact ⟨(eq_iff _ _).2 ⟨h.1, h.2.1, h.2.2.1⟩, fun m => (run_obs_eq G m _ _ h).1,
    discard_zero G e⟩

/-- C23 at `counter_engine<threefry4x32>` after one call, skipping 5 then 1000. -/
theorem C23_skips_compose_witness :
    0 < engine4x32.N ∧
    Reachable engine4x32
      (counter_engine.steps engine4x32 1 (counter_engine.from_default engine4x32 [])) ∧
    5 + 1000 < 2 ^ 64 ∧
    (((counter_engine.steps engine4x32 1
        (counter_engine.from_default engine4x32 [])).discard engine4x32 5).discard
          engine4x32 1000).eq
      ((counter_engine.steps engine4x32 1
        (counter_engine.from_default engine4x32 [])).discard engine4x32 (5 + 1000)) = true :=
  ⟨by decide, reachable_steps _ _ _ (Reachable.from_default _), by norm_num,
    (C23_skips_compose engine4x32 (by decide) _
      (reachable_steps _ _ _ (Reachable.from_default _)) 5 1000 (by norm_num)).1⟩

/-! ## Rotation amounts -/

/-- With `0 < s < W`, bit `i` of `threefry_rotl x s` is bit `i - s` (modulo `W`)
of `x`. -/
theorem threefry_rotl_testBit (U : Uint) (x s : Nat) (hx : x < 2 ^ U.digits) (hs : s < U.digits)
    (i : Nat) (hi : i < U.digits) :
    (threefry_rotl U x s).testBit i = x.testBit ((i + (U.digits - s)) % U.digits) := by
  simp only [threefry_rotl, Nat.testBit_or, Nat.testBit_mod_two_pow, Nat.testBit_shiftLeft,
    Nat.testBit_shiftRight]
  by_cases his : i < s
  · have h1 : ¬ i ≥ s := by omega
    have h2 : (i + (U.digits - s)) % U.digits = U.digits - s + i := by
      rw [Nat.mod_eq_of_lt (by omega), Nat.add_comm]
    simp [h1, h2]
  · have h1 : i ≥ s := by omega
    have h2 : (i + (U.digits - s)) % U.digits = i - s := by
      have : i + (U.digits - s) = (i - s) + U.digits := by omega
      rw [this, Nat.add_mod_right, Nat.mod_eq_of_lt (by omega)]
    have h3 : x.testBit (U.digits - s + i) = false := by
      apply Nat.testBit_lt_two_pow
      exact Nat.lt_of_lt_of_le hx (Nat.pow_le_pow_right (by decide) (by omega))
    simp [h1, h2, h3, hi]

theorem rotations_in_range (r : Nat) :
    (0 < threefry_constants_2x32_rotations r ∧ threefry_constants_2x32_rotations r < 32) ∧
    (0 < threefry_constants_4x32_rotations0 r ∧ threefry_constants_4x32_rotations0 r < 32) ∧
    (0 < threefry_constants_4x32_rotations1 r ∧ threefry_constants_4x32_rotations1 r < 32) ∧
    (0 < threefry_constants_2x64_rotations r ∧ threefry_constants_2x64_rotations r < 64) ∧
    (0 < threefry_constants_4x64_rotations0 r ∧ threefry_constants_4x64_rotations0 r < 64) ∧
    (0 < threefry_constants_4x64_rotations1 r ∧ threefry_constants_4x64_rotations1 r < 64) := by
  have h : ∀ i, i < 8 →
      (0 < rd [13, 15, 26, 6, 17, 29, 16, 24] i ∧ rd [13, 15, 26, 6, 17, 29, 16, 24] i < 32) ∧
      (0 < rd [10, 11, 13, 23, 6, 17, 25, 18] i ∧ rd [10, 11, 13, 23, 6, 17, 25, 18] i < 32) ∧
      (0 < rd [26, 21, 27, 5, 20, 11, 10, 20] i ∧ rd [26, 21, 27, 5, 20, 11, 10, 20] i < 32) ∧
      (0 < rd [16, 42, 12, 31, 16, 32, 24, 21] i ∧ rd [16, 42, 12, 31, 16, 32, 24, 21] i < 64) ∧
      (0 < rd [14, 52, 23, 5, 25, 46, 58, 32] i ∧ rd [14, 52, 23, 5, 25, 46, 58, 32] i < 64) ∧
      (0 < rd [16, 57, 40, 37, 33, 12, 22, 32] i ∧ rd [16, 57, 40, 37, 33, 12, 22, 32] i < 64) := by
    decide
  exact h (r % 8) (Nat.mod_lt _ (by decide))

/-- C24: rotation amounts are always in range. For each of the four constant
tables and every round index `r`, the amount `s` given by `rotations`,
`rotations0` or `rotations1` satisfies `0 < s < W`; for such an `s` both shifts
of `threefry_rotl` are by amounts strictly between 0 and `W`, and the result is
the left rotation of the `W`-bit word: it is a word, its bit `i` is bit
`(i - s) mod W` of the argument, and it is the low `W - s` bits moved up by `s`
plus the high `s` bits moved down. -/
theorem C24_rotation_in_range (r : Nat) :
    ((0 < threefry_constants_2x32_rotations r ∧
        threefry_constants_2x32_rotations r < Uint.uint32_t.digits) ∧
      (0 < threefry_constants_4x32_rotations0 r ∧
        threefry_constants_4x32_rotations0 r < Uint.uint32_t.digits) ∧
      (0 < threefry_constants_4x32_rotations1 r ∧
        threefry_constants_4x32_rotations1 r < Uint.uint32_t.digits) ∧
      (0 < threefry_constants_2x64_rotations r ∧
        threefry_constants_2x64_rotations r < Uint.uint64_t.digits) ∧
      (0 < threefry_constants_4x64_rotations0 r ∧
        threefry_constants_4x64_rotations0 r < Uint.uint64_t.digits) ∧
      (0 < threefry_constants_4x64_rotations1 r ∧
        threefry_constants_4x64_rotations1 r < Uint.uint64_t.digits)) ∧
    (∀ (U : Uint) (x s : Nat), x < 2 ^ U.digits → 0 < s → s < U.digits →
      (0 < U.digits - s ∧ U.digits - s < U.digits) ∧
      threefry_rotl U x s < 2 ^ U.digits ∧
      (∀ i, i < U.digits →
        (threefry_rotl U x s).testBit i = x.testBit ((i + (U.digits - s)) % U.digits)) ∧
      threefry_rotl U x s =
        2 ^ s * (x % 2 ^ (U.digits - s)) + x / 2 ^ (U.digits - s)) := by
  refine ⟨rotations_in_range r, fun U x s hx hs0 hs => ⟨⟨by omega, by omega⟩,
    threefry_rotl_lt U x s hx, fun i hi => threefry_rotl_testBit U x s hx hs i hi,
    threefry_rotl_eq U x s hx hs⟩⟩

/-- C24 at round 13 of Threefry-4x64 and the word 0x8000000000000001. -/
theorem C24_rotation_in_range_witness :
    0x8000000000000001 < 2 ^ Uint.uint64_t.digits ∧
    0 < threefry_constants_4x64_rotations0 13 ∧
    threefry_constants_4x64_rotations0 13 < Uint.uint64_t.digits ∧
    threefry_rotl .uint64_t 0x8000000000000001 (threefry_constants_4x64_rotations0 13) =
      2 ^ threefry_constants_4x64_rotations0 13 *
          (0x8000000000000001 %
            2 ^ (Uint.uint64_t.digits - threefry_constants_4x64_rotations0 13)) +
        0x8000000000000001 /
          2 ^ (Uint.uint64_t.digits - threefry_constants_4x64_rotations0 13) :=
  ⟨by decide, by decide, by decide,
    ((C24_rotation_in_range 13).2 .uint64_t 0x8000000000000001
      (threefry_constants_4x64_rotations0 13) (by decide) (by decide) (by decide)).2.2.2⟩

end alea
